import Mathlib

/-!
Verification of the natural-breaks (Jenks) classification engine of the
ICIO_tax repository: `jenksBreaks`, `varianceWithin`, `getClassIndex`
(naturalBreaks.js) and `getICIOColor`, `generateColorPalette` (iconLayer.js).

Numbers are modelled by `ℚ`.  A JavaScript value that may be `null`,
`undefined` or `NaN` is modelled by `Option ℚ`, with `none` standing for the
invalid values.  Inside the breaks solver the running minimum of the dynamic
program starts at `Infinity`; that sentinel is modelled by `Option ℚ` as well
(`none` = `Infinity`), with the addition and strict comparison used by the
code mirrored by `oAdd` and `oLt` below.
-/

namespace ICIO

/-- JS `Infinity + x` (the left summand is the stored running minimum,
the right one is always a finite variance). -/
def oAdd : Option ℚ → ℚ → Option ℚ
  | none, _ => none
  | some a, b => some (a + b)

/-- JS `a < b` where either side may be `Infinity` (`none`):
`Infinity < b` is false, `a < Infinity` is true for finite `a`. -/
def oLt : Option ℚ → Option ℚ → Bool
  | none, _ => false
  | some _, none => true
  | some a, some b => decide (a < b)

/-- `¬ (b < a)`: with the total order on finite values this is `a ≤ b`. -/
def oLe (a b : Option ℚ) : Bool := ! oLt b a

/-- `varianceWithin(data, start, end)`: sum of squared deviations from the
mean of `data.slice(start, end + 1)`; `0` when `start >= end`. -/
def varianceWithin (data : List ℚ) (start e : ℕ) : ℚ :=
  if start ≥ e then 0
  else
    let subset := (data.drop start).take (e + 1 - start)
    let mean := subset.sum / subset.length
    (subset.map (fun val => (val - mean) ^ 2)).sum

/-- The two matrices of the dynamic program of `jenksBreaks`, as a function of
(class count `i`, prefix length `j`): the pair
`(lowerClassLimits[j][i], varianceCombinations[j][i])` after the loops have
finished.  Row `j = 1` is initialised to `(1, 0)`; row `j = 0` and column
`i = 0` keep the all-zero initialisation (they are never read); for `i = 1`
the cell is `(1, varianceWithin sorted 0 (j-1))`; for `i, j ≥ 2` the inner
loop scans `k = i..j` keeping the first strict improvement over the running
minimum, which starts at `Infinity` with `lowerClassLimits[j][i] = 0`. -/
def jenksDP (s : List ℚ) : ℕ → ℕ → ℕ × Option ℚ
  | 0, _ => (0, some 0)
  | _ + 1, 0 => (0, some 0)
  | _ + 1, 1 => (1, some 0)
  | 1, j => (1, some (varianceWithin s 0 (j - 1)))
  | i + 2, j =>
    (List.range' (i + 2) (j + 1 - (i + 2))).foldl
      (fun acc k =>
        let w := oAdd (jenksDP s (i + 1) (k - 1)).2 (varianceWithin s (k - 1) (j - 1))
        if oLt w acc.2 then (k, w) else acc)
      (0, none)

/-- The break-extraction loop of `jenksBreaks`: starting from prefix length
`k` it walks `j = n, n-1, …, 1`, emitting
`sorted[lowerClassLimits[k][j] - 1]` as `breaks[j-1]` and continuing from
that index.  The returned list is `[breaks[0], …, breaks[n-1]]`. -/
def backtrack (s : List ℚ) : ℕ → ℕ → List ℚ
  | _, 0 => []
  | k, j + 1 =>
    backtrack s ((jenksDP s (j + 1) k).1 - 1) j ++ [s.getD ((jenksDP s (j + 1) k).1 - 1) 0]

/-- The full `breaks` array of `jenksBreaks` before duplicate removal:
entries `0..n-1` come from the extraction loop, then entry `0` is overwritten
with `sorted[0]` and entry `n` is set to `sorted[dataLength - 1]`.
(For `n = 0` the extraction loop is empty and index `0` is written twice,
leaving the one-element array `[sorted[dataLength - 1]]`.) -/
def rawBreaks (s : List ℚ) (n : ℕ) : List ℚ :=
  if n = 0 then [s.getD (s.length - 1) 0]
  else (s.getD 0 0 :: (backtrack s s.length n).drop 1) ++ [s.getD (s.length - 1) 0]

/-- `breaks.filter((v, i, a) => a.indexOf(v) === i)` and `[...new Set(l)]`:
keep an entry exactly when its value has not been `seen` at an earlier
index. -/
def keepFirstAux (seen : List ℚ) : List ℚ → List ℚ
  | [] => []
  | x :: xs => if x ∈ seen then keepFirstAux seen xs else x :: keepFirstAux (x :: seen) xs

/-- Keep the first occurrence of every value, in order. -/
def keepFirst (l : List ℚ) : List ℚ := keepFirstAux [] l

/-- `jenksBreaks(data, nClasses)`.  A raw entry is `none` when it is
`null`/`undefined`/`NaN`.  The JS numeric sort `sort((a, b) => a - b)` is
modelled by sorting ascending by `≤`. -/
def jenksBreaks (data : List (Option ℚ)) (nClasses : ℕ) : List ℚ :=
  if data.isEmpty then []
  else
    let cleanData := data.filterMap id
    if cleanData.isEmpty then []
    else
      let sorted := cleanData.insertionSort (· ≤ ·)
      if sorted.length ≤ nClasses then keepFirst sorted
      else keepFirst (rawBreaks sorted nClasses)

/-- The scan `for (i = 0; i < breaks.length - 1; i++)` of `getClassIndex`:
return the first `i` with `breaks[i] <= value < breaks[i+1]`, else `none`. -/
def scanClasses (v : ℚ) : List ℚ → Option ℕ
  | b0 :: b1 :: rest =>
    if b0 ≤ v ∧ v < b1 then some 0
    else (scanClasses v (b1 :: rest)).map Nat.succ
  | _ => none

/-- `getClassIndex(value, breaks)`: `-1` for `null`/`NaN`; otherwise the
first class whose half-open interval contains the value; otherwise the last
class when `value >= breaks[breaks.length - 2]` (which in JS is a comparison
against `undefined`, hence false, when `breaks` has fewer than 2 entries);
otherwise `-1`. -/
def getClassIndex (value : Option ℚ) (breaks : List ℚ) : ℤ :=
  match value with
  | none => -1
  | some v =>
    match scanClasses v breaks with
    | some i => (i : ℤ)
    | none =>
      if 2 ≤ breaks.length ∧ breaks.getD (breaks.length - 2) 0 ≤ v then
        (breaks.length : ℤ) - 2
      else -1

/-- An RGB triple as produced by `generateColorPalette`; a channel is `none`
when the JS computation yields `NaN`. -/
abbrev Color := Option ℤ × Option ℤ × Option ℤ

/-- The fallback gray `[128, 128, 128]`. -/
def gray : Color := (some 128, some 128, some 128)

/-- `getICIOColor(icio, breaks, colors)`. -/
def getICIOColor (icio : Option ℚ) (breaks : List ℚ) (colors : List Color) : Color :=
  match icio with
  | none => gray
  | some v =>
    if breaks.length < 2 then gray
    else
      let classIndex := getClassIndex (some v) breaks
      if classIndex = -1 ∨ (colors.length : ℤ) ≤ classIndex then gray
      else colors.getD classIndex.toNat (some 0, some 0, some 0)

/-- One iteration of the loop of `generateColorPalette`.  For
`numClasses = 1` the code computes `0 / 0 = NaN`; `NaN < 0.5` is false, so
the yellow→red branch runs and both `r = 204 + Math.floor(NaN * 51)` and
`g = 200 - Math.floor(NaN * 200)` are `NaN` while `b = 0`. -/
def paletteEntry (numClasses i : ℕ) : Color :=
  if numClasses = 1 then (none, none, some 0)
  else
    let t : ℚ := (i : ℚ) / ((numClasses : ℚ) - 1)
    if t < 1 / 2 then (some ⌊t * 2 * 204⌋, some 200, some 0)
    else (some (204 + ⌊(t - 1 / 2) * 2 * 51⌋), some (200 - ⌊(t - 1 / 2) * 2 * 200⌋), some 0)

/-- `generateColorPalette(numClasses)`. -/
def generateColorPalette (numClasses : ℕ) : List Color :=
  (List.range numClasses).map (paletteEntry numClasses)

set_option maxRecDepth 40000 in
/-- C2: on the canonical worked example, `jenksBreaks` applied to the sample
`[1,…,10]` with `k = 3` returns exactly `[1, 4, 7, 10]`, and with those
breaks `getClassIndex` sends `4` to class `1`, `10` to class `2` and `0` to
the sentinel `-1`. -/
theorem C2_canonical_example :
    jenksBreaks [some 1, some 2, some 3, some 4, some 5,
      some 6, some 7, some 8, some 9, some 10] 3 = [1, 4, 7, 10] ∧
    getClassIndex (some 4) [1, 4, 7, 10] = 1 ∧
    getClassIndex (some 10) [1, 4, 7, 10] = 2 ∧
    getClassIndex (some 0) [1, 4, 7, 10] = -1 := by
  refine ⟨by with_unfolding_all decide, by decide, by decide, by decide⟩

/-- C4 (code bug): `generateColorPalette 1` computes the interpolation
parameter as `0 / 0 = NaN`, falls into the yellow→red branch, and returns a
single triple whose red and green channels are `NaN` (modelled `none`) —
not the `(0, 200, 0)` that the specification prescribes for `t = 0`. -/
theorem C4_palette_one_is_nan :
    generateColorPalette 1 = [(none, none, some 0)] := by decide

/-- C10: `jenksBreaks` filters invalid (null/undefined/NaN) entries itself,
so its result on any raw input equals its result on the input with every
invalid entry removed. -/
theorem C10_filter_invariant (raw : List (Option ℚ)) (k : ℕ) :
    jenksBreaks raw k = jenksBreaks ((raw.filterMap id).map some) k := by
  unfold jenksBreaks
  rcases raw with _ | ⟨x, raw⟩
  · rfl
  · simp only [List.isEmpty_cons, List.filterMap_map, Function.id_comp,
      List.filterMap_some, Bool.false_eq_true, if_false]
    rcases h : (x :: raw).filterMap id with _ | ⟨y, c⟩
    · rfl
    · rfl

/-! ### Class Assigner: characterisation of `getClassIndex` -/

theorem scanClasses_cons (v b0 b1 : ℚ) (rest : List ℚ) :
    scanClasses v (b0 :: b1 :: rest) =
      if b0 ≤ v ∧ v < b1 then some 0
      else (scanClasses v (b1 :: rest)).map Nat.succ := rfl

theorem scanClasses_hit (v b0 b1 : ℚ) (rest : List ℚ) (h : b0 ≤ v ∧ v < b1) :
    scanClasses v (b0 :: b1 :: rest) = some 0 := by
  rw [scanClasses_cons, if_pos h]

theorem scanClasses_miss (v b0 b1 : ℚ) (rest : List ℚ) (h : ¬ (b0 ≤ v ∧ v < b1)) :
    scanClasses v (b0 :: b1 :: rest) = (scanClasses v (b1 :: rest)).map Nat.succ := by
  rw [scanClasses_cons, if_neg h]

theorem getClassIndex_some_eq (v : ℚ) (breaks : List ℚ) :
    getClassIndex (some v) breaks =
      match scanClasses v breaks with
      | some i => (i : ℤ)
      | none =>
        if 2 ≤ breaks.length ∧ breaks.getD (breaks.length - 2) 0 ≤ v then
          (breaks.length : ℤ) - 2
        else -1 := rfl

theorem getClassIndex_scan_some (v : ℚ) (breaks : List ℚ) (i : ℕ)
    (h : scanClasses v breaks = some i) : getClassIndex (some v) breaks = (i : ℤ) := by
  rw [getClassIndex_some_eq, h]

theorem getClassIndex_scan_none_pos (v : ℚ) (breaks : List ℚ)
    (h : scanClasses v breaks = none)
    (hc : 2 ≤ breaks.length ∧ breaks.getD (breaks.length - 2) 0 ≤ v) :
    getClassIndex (some v) breaks = (breaks.length : ℤ) - 2 := by
  rw [getClassIndex_some_eq, h]
  exact if_pos hc

theorem getClassIndex_scan_none_neg (v : ℚ) (breaks : List ℚ)
    (h : scanClasses v breaks = none)
    (hc : ¬ (2 ≤ breaks.length ∧ breaks.getD (breaks.length - 2) 0 ≤ v)) :
    getClassIndex (some v) breaks = -1 := by
  rw [getClassIndex_some_eq, h]
  exact if_neg hc

theorem scanClasses_eq_none (v : ℚ) (l : List ℚ) (h : ∀ x ∈ l, ¬ x ≤ v) :
    scanClasses v l = none := by
  induction l with
  | nil => rfl
  | cons b0 tl ih =>
    cases tl with
    | nil => rfl
    | cons b1 rest =>
      have hb0 : ¬ b0 ≤ v := h b0 (List.mem_cons_self _ _)
      rw [scanClasses_miss v b0 b1 rest (by tauto)]
      rw [ih (fun x hx => h x (List.mem_cons_of_mem _ hx))]
      rfl

theorem getClassIndex_short (v : ℚ) (breaks : List ℚ) (h : breaks.length < 2) :
    getClassIndex (some v) breaks = -1 := by
  match breaks, h with
  | [], _ =>
    exact getClassIndex_scan_none_neg v [] rfl (by simp)
  | [b], _ =>
    exact getClassIndex_scan_none_neg v [b] rfl (by simp)

theorem getClassIndex_neg_one_le (v : Option ℚ) (breaks : List ℚ) :
    -1 ≤ getClassIndex v breaks := by
  cases v with
  | none => exact le_refl _
  | some v =>
    cases hscan : scanClasses v breaks with
    | none =>
      by_cases hc : 2 ≤ breaks.length ∧ breaks.getD (breaks.length - 2) 0 ≤ v
      · rw [getClassIndex_scan_none_pos v breaks hscan hc]
        have := hc.1
        omega
      · rw [getClassIndex_scan_none_neg v breaks hscan hc]
    | some i =>
      rw [getClassIndex_scan_some v breaks i hscan]
      omega

/-- Every element of a `≤`-sorted nonempty list is at least the head. -/
theorem sorted_head_le (b0 : ℚ) (tl : List ℚ) (hs : (b0 :: tl).Sorted (· ≤ ·)) :
    ∀ x ∈ b0 :: tl, b0 ≤ x := by
  intro x hx
  rcases List.mem_cons.mp hx with h | h
  · exact le_of_eq h.symm
  · exact (List.sorted_cons.mp hs).1 x h

/-- For a non-decreasing `breaks` with at least two entries and a value at or
above the minimum boundary, `getClassIndex` returns the number of interior
boundaries `breaks[1], …, breaks[m-2]` that are `≤ value`. -/
theorem getClassIndex_count (v : ℚ) (breaks : List ℚ)
    (hs : breaks.Sorted (· ≤ ·)) (h2 : 2 ≤ breaks.length) (hv : breaks.getD 0 0 ≤ v) :
    getClassIndex (some v) breaks =
      ((breaks.drop 1).dropLast.countP (fun b => decide (b ≤ v)) : ℤ) := by
  induction breaks with
  | nil => simp at h2
  | cons b0 tl ih =>
    cases tl with
    | nil => simp at h2
    | cons b1 rest =>
      have hb0 : b0 ≤ v := by rwa [List.getD_cons_zero] at hv
      have hs1 : (b1 :: rest).Sorted (· ≤ ·) := hs.of_cons
      have hinterior : ((b0 :: b1 :: rest).drop 1).dropLast = (b1 :: rest).dropLast := rfl
      by_cases hvb1 : v < b1
      · have hcount : (b1 :: rest).dropLast.countP (fun b => decide (b ≤ v)) = 0 := by
          rw [List.countP_eq_zero]
          intro x hx
          have hb1x : b1 ≤ x := sorted_head_le b1 rest hs1 x (List.dropLast_subset _ hx)
          simp only [decide_eq_true_eq]
          exact fun hxv => absurd (le_trans hb1x hxv) (not_le.mpr hvb1)
        rw [getClassIndex_scan_some v _ 0 (scanClasses_hit v b0 b1 rest ⟨hb0, hvb1⟩),
          hinterior, hcount]
      · have hb1 : b1 ≤ v := not_lt.mp hvb1
        have hmiss : ¬ (b0 ≤ v ∧ v < b1) := fun h => hvb1 h.2
        have hscan := scanClasses_miss v b0 b1 rest hmiss
        cases rest with
        | nil =>
          have hscan2 : scanClasses v [b0, b1] = none := by
            rw [hscan]
            rfl
          have hres := getClassIndex_scan_none_pos v [b0, b1] hscan2
            ⟨by simp, by rw [show ([b0, b1].length - 2) = 0 from rfl, List.getD_cons_zero]
                         exact hb0⟩
          rw [hres]
          rfl
        | cons b2 rest2 =>
          have ihres := ih hs1 (by simp)
            (by rw [List.getD_cons_zero]; exact hb1)
          have hdrop : ((b1 :: b2 :: rest2).drop 1).dropLast = (b2 :: rest2).dropLast := rfl
          have hconscount : (b1 :: b2 :: rest2).dropLast.countP (fun b => decide (b ≤ v)) =
              ((b2 :: rest2).dropLast.countP (fun b => decide (b ≤ v))) + 1 := by
            rw [show (b1 :: b2 :: rest2).dropLast = b1 :: (b2 :: rest2).dropLast from rfl,
              List.countP_cons]
            simp [hb1]
          rw [hdrop] at ihres
          cases htl : scanClasses v (b1 :: b2 :: rest2) with
          | some i =>
            have hscan2 : scanClasses v (b0 :: b1 :: b2 :: rest2) = some (i + 1) := by
              rw [hscan, htl]
              rfl
            have htlres := getClassIndex_scan_some v _ i htl
            rw [htlres] at ihres
            have hieq : i = (b2 :: rest2).dropLast.countP (fun b => decide (b ≤ v)) := by
              exact_mod_cast ihres
            rw [getClassIndex_scan_some v _ (i + 1) hscan2, hinterior, hconscount, hieq]
          | none =>
            have hcondTail : 2 ≤ (b1 :: b2 :: rest2).length ∧
                (b1 :: b2 :: rest2).getD ((b1 :: b2 :: rest2).length - 2) 0 ≤ v := by
              by_contra hc
              have hneg := getClassIndex_scan_none_neg v _ htl hc
              rw [hneg] at ihres
              omega
            have hscan2 : scanClasses v (b0 :: b1 :: b2 :: rest2) = none := by
              rw [hscan, htl]
              rfl
            have hidx : (b0 :: b1 :: b2 :: rest2).length - 2 =
                ((b1 :: b2 :: rest2).length - 2) + 1 := by
              simp only [List.length_cons]
              omega
            have hcondWhole : 2 ≤ (b0 :: b1 :: b2 :: rest2).length ∧
                (b0 :: b1 :: b2 :: rest2).getD
                  ((b0 :: b1 :: b2 :: rest2).length - 2) 0 ≤ v := by
              refine ⟨by simp, ?_⟩
              rw [hidx, List.getD_cons_succ]
              exact hcondTail.2
            have htlres := getClassIndex_scan_none_pos v _ htl hcondTail
            rw [htlres] at ihres
            rw [getClassIndex_scan_none_pos v _ hscan2 hcondWhole, hinterior, hconscount]
            simp only [List.length_cons] at ihres ⊢
            push_cast at ihres ⊢
            omega

theorem getClassIndex_below_min (v : ℚ) (breaks : List ℚ)
    (hs : breaks.Sorted (· ≤ ·)) (h2 : 2 ≤ breaks.length) (hv : v < breaks.getD 0 0) :
    getClassIndex (some v) breaks = -1 := by
  match breaks, h2 with
  | b0 :: b1 :: rest, _ =>
    have hb0 : v < b0 := by rwa [List.getD_cons_zero] at hv
    have hall : ∀ x ∈ b0 :: b1 :: rest, ¬ x ≤ v := by
      intro x hx hxv
      exact absurd (le_trans (sorted_head_le b0 _ hs x hx) hxv) (not_le.mpr hb0)
    have hscan := scanClasses_eq_none v _ hall
    refine getClassIndex_scan_none_neg v _ hscan ?_
    intro hc
    have hlt : (b0 :: b1 :: rest).length - 2 < (b0 :: b1 :: rest).length := by
      simp only [List.length_cons]
      omega
    have hmem : (b0 :: b1 :: rest).getD ((b0 :: b1 :: rest).length - 2) 0 ∈
        b0 :: b1 :: rest := by
      rw [List.getD_eq_getElem _ _ hlt]
      exact List.getElem_mem hlt
    exact hall _ hmem hc.2

/-- C6: `getClassIndex` is total with a defined sentinel: a null/NaN value
gives `-1`; fewer than two boundaries give `-1`; with non-decreasing breaks
of length at least 2, a value below the minimum boundary gives `-1` and a
value in the closed range of the boundaries gives a class index in
`[0, len(breaks) - 2]`. -/
theorem C6_classify_total :
    (∀ breaks : List ℚ, getClassIndex none breaks = -1) ∧
    (∀ (v : ℚ) (breaks : List ℚ), breaks.length < 2 →
      getClassIndex (some v) breaks = -1) ∧
    (∀ (v : ℚ) (breaks : List ℚ), breaks.Sorted (· ≤ ·) → 2 ≤ breaks.length →
      v < breaks.getD 0 0 → getClassIndex (some v) breaks = -1) ∧
    (∀ (v : ℚ) (breaks : List ℚ), breaks.Sorted (· ≤ ·) → 2 ≤ breaks.length →
      breaks.getD 0 0 ≤ v → v ≤ breaks.getD (breaks.length - 1) 0 →
      0 ≤ getClassIndex (some v) breaks ∧
        getClassIndex (some v) breaks ≤ (breaks.length : ℤ) - 2) := by
  refine ⟨fun _ => rfl, getClassIndex_short, getClassIndex_below_min, ?_⟩
  intro v breaks hs h2 hlo _
  rw [getClassIndex_count v breaks hs h2 hlo]
  constructor
  · positivity
  · have hcle : (breaks.drop 1).dropLast.countP (fun b => decide (b ≤ v)) ≤
        breaks.length - 2 := by
      have := List.countP_le_length (p := fun b => decide (b ≤ v))
        (l := (breaks.drop 1).dropLast)
      simpa using this
    omega

/-- C7: for a fixed non-decreasing breaks sequence with at least two entries,
`getClassIndex` is monotone in the value. -/
theorem C7_classify_monotone (breaks : List ℚ) (hs : breaks.Sorted (· ≤ ·))
    (h2 : 2 ≤ breaks.length) (v1 v2 : ℚ) (h12 : v1 ≤ v2) :
    getClassIndex (some v1) breaks ≤ getClassIndex (some v2) breaks := by
  by_cases h1 : breaks.getD 0 0 ≤ v1
  · rw [getClassIndex_count v1 breaks hs h2 h1,
      getClassIndex_count v2 breaks hs h2 (le_trans h1 h12)]
    have := List.countP_mono_left (l := (breaks.drop 1).dropLast)
      (p := fun b => decide (b ≤ v1)) (q := fun b => decide (b ≤ v2))
      (fun a _ ha => by
        simp only [decide_eq_true_eq] at ha ⊢
        exact le_trans ha h12)
    exact_mod_cast this
  · rw [getClassIndex_below_min v1 breaks hs h2 (not_le.mp h1)]
    exact getClassIndex_neg_one_le _ _

/-- C8: `getICIOColor` returns the fallback gray for a null/NaN value, for
fewer than two boundaries, and whenever the class index is `-1` or out of the
palette's bounds; in every other case it returns the palette entry at the
class index.  In particular a NaN value over `[1,4,7,10]` and any value over
empty breaks give gray for every palette. -/
theorem C8_color_resolver :
    (∀ (breaks : List ℚ) (colors : List Color),
      getICIOColor none breaks colors = gray) ∧
    (∀ (v : ℚ) (breaks : List ℚ) (colors : List Color), breaks.length < 2 →
      getICIOColor (some v) breaks colors = gray) ∧
    (∀ (v : ℚ) (breaks : List ℚ) (colors : List Color),
      getClassIndex (some v) breaks = -1 ∨
        (colors.length : ℤ) ≤ getClassIndex (some v) breaks →
      getICIOColor (some v) breaks colors = gray) ∧
    (∀ (v : ℚ) (breaks : List ℚ) (colors : List Color),
      getClassIndex (some v) breaks ≠ -1 →
      getClassIndex (some v) breaks < (colors.length : ℤ) →
      getICIOColor (some v) breaks colors =
        colors.getD (getClassIndex (some v) breaks).toNat (some 0, some 0, some 0)) ∧
    (∀ colors : List Color, getICIOColor none [1, 4, 7, 10] colors = gray) ∧
    (∀ (v : Option ℚ) (colors : List Color), getICIOColor v [] colors = gray) := by
  refine ⟨fun _ _ => rfl, ?_, ?_, ?_, fun _ => rfl, ?_⟩
  · intro v breaks colors h
    simp [getICIOColor, h]
  · intro v breaks colors h
    by_cases hlen : breaks.length < 2
    · simp [getICIOColor, hlen]
    · simp [getICIOColor, hlen, h]
  · intro v breaks colors hne hlt
    have hlen : ¬ breaks.length < 2 := by
      intro hlen
      exact hne (getClassIndex_short v breaks hlen)
    simp [getICIOColor, hlen, hne, not_le.mpr hlt]
  · intro v colors
    cases v with
    | none => rfl
    | some v => simp [getICIOColor]

/-- Witness for C6 at concrete inputs. -/
theorem C6_classify_total_witness :
    getClassIndex none [(1:ℚ), 4, 7, 10] = -1 ∧
    getClassIndex (some 5) [(1:ℚ)] = -1 ∧
    getClassIndex (some 0) [(1:ℚ), 4, 7, 10] = -1 ∧
    (0 ≤ getClassIndex (some 8) [(1:ℚ), 4, 7, 10] ∧
      getClassIndex (some 8) [(1:ℚ), 4, 7, 10] ≤ (([(1:ℚ), 4, 7, 10].length : ℤ)) - 2) :=
  ⟨C6_classify_total.1 _,
   C6_classify_total.2.1 5 [1] (by decide),
   C6_classify_total.2.2.1 0 _ (by decide) (by decide) (by decide),
   C6_classify_total.2.2.2 8 _ (by decide) (by decide) (by decide) (by decide)⟩

/-- Witness for C7 at concrete inputs. -/
theorem C7_classify_monotone_witness :
    getClassIndex (some 3) [(1:ℚ), 4, 7, 10] ≤ getClassIndex (some 9) [(1:ℚ), 4, 7, 10] :=
  C7_classify_monotone [1, 4, 7, 10] (by decide) (by decide) 3 9 (by decide)

/-- Witness for C8 at concrete inputs. -/
theorem C8_color_resolver_witness :
    getICIOColor (some 5) [(1:ℚ)] [gray] = gray ∧
    getICIOColor (some 20) [(1:ℚ), 4] [] = gray ∧
    getICIOColor (some 5) [(1:ℚ), 4, 7, 10]
        [(some 10, some 20, some 30), (some 40, some 50, some 60), (some 70, some 80, some 90)] =
      [(some 10, some 20, some 30), (some 40, some 50, some 60),
        (some 70, some 80, some 90)].getD
        (getClassIndex (some 5) [(1:ℚ), 4, 7, 10]).toNat (some 0, some 0, some 0) :=
  ⟨C8_color_resolver.2.1 5 [1] [gray] (by decide),
   C8_color_resolver.2.2.1 20 [1, 4] [] (Or.inr (by decide)),
   C8_color_resolver.2.2.2.1 5 [1, 4, 7, 10] _ (by decide) (by decide)⟩

/-! ### Palette Generator -/

theorem paletteEntry_ne_one (n i : ℕ) (h : n ≠ 1) :
    paletteEntry n i =
      if ((i : ℚ) / ((n : ℚ) - 1)) < 1 / 2 then
        (some ⌊((i : ℚ) / ((n : ℚ) - 1)) * 2 * 204⌋, some 200, some 0)
      else
        (some (204 + ⌊(((i : ℚ) / ((n : ℚ) - 1)) - 1 / 2) * 2 * 51⌋),
          some (200 - ⌊(((i : ℚ) / ((n : ℚ) - 1)) - 1 / 2) * 2 * 200⌋), some 0) := by
  simp only [paletteEntry, if_neg h]

theorem paletteEntry_blue (n i : ℕ) : (paletteEntry n i).2.2 = some 0 := by
  by_cases h : n = 1
  · simp [paletteEntry, h]
  · rw [paletteEntry_ne_one n i h]
    split
    · rfl
    · rfl

theorem paletteEntry_red_mono (n i j : ℕ) (h2 : 2 ≤ n) (hij : i ≤ j) :
    ∀ ri rj, (paletteEntry n i).1 = some ri → (paletteEntry n j).1 = some rj →
      ri ≤ rj := by
  intro ri rj hi hj
  have hne : n ≠ 1 := by omega
  have hden : (0 : ℚ) < (n : ℚ) - 1 := by
    have h2q : (2 : ℚ) ≤ (n : ℚ) := by exact_mod_cast h2
    linarith
  have ht : ((i : ℚ) / ((n : ℚ) - 1)) ≤ ((j : ℚ) / ((n : ℚ) - 1)) := by
    gcongr
  rw [paletteEntry_ne_one n i hne] at hi
  rw [paletteEntry_ne_one n j hne] at hj
  set ti := (i : ℚ) / ((n : ℚ) - 1) with hti_def
  set tj := (j : ℚ) / ((n : ℚ) - 1) with htj_def
  by_cases hti : ti < 1 / 2 <;> by_cases htj : tj < 1 / 2
  · rw [if_pos hti] at hi
    rw [if_pos htj] at hj
    simp only [Option.some.injEq] at hi hj
    rw [← hi, ← hj]
    exact Int.floor_le_floor (by nlinarith)
  · rw [if_pos hti] at hi
    rw [if_neg htj] at hj
    simp only [Option.some.injEq] at hi hj
    have hub : ri < 204 := by
      rw [← hi]
      have : ti * 2 * 204 < (204 : ℚ) := by nlinarith
      exact_mod_cast Int.floor_lt.mpr (by exact_mod_cast this)
    have hlb : 0 ≤ ⌊(tj - 1 / 2) * 2 * 51⌋ := by
      apply Int.floor_nonneg.mpr
      have := not_lt.mp htj
      nlinarith
    omega
  · exact absurd (lt_of_le_of_lt ht htj) hti
  · rw [if_neg hti] at hi
    rw [if_neg htj] at hj
    simp only [Option.some.injEq] at hi hj
    have hm : ⌊(ti - 1 / 2) * 2 * 51⌋ ≤ ⌊(tj - 1 / 2) * 2 * 51⌋ :=
      Int.floor_le_floor (by nlinarith)
    omega

theorem paletteEntry_green_antitone (n i j : ℕ) (h2 : 2 ≤ n) (hij : i ≤ j) :
    ∀ gi gj, (paletteEntry n i).2.1 = some gi → (paletteEntry n j).2.1 = some gj →
      gj ≤ gi := by
  intro gi gj hi hj
  have hne : n ≠ 1 := by omega
  have hden : (0 : ℚ) < (n : ℚ) - 1 := by
    have h2q : (2 : ℚ) ≤ (n : ℚ) := by exact_mod_cast h2
    linarith
  have ht : ((i : ℚ) / ((n : ℚ) - 1)) ≤ ((j : ℚ) / ((n : ℚ) - 1)) := by
    gcongr
  rw [paletteEntry_ne_one n i hne] at hi
  rw [paletteEntry_ne_one n j hne] at hj
  set ti := (i : ℚ) / ((n : ℚ) - 1) with hti_def
  set tj := (j : ℚ) / ((n : ℚ) - 1) with htj_def
  by_cases hti : ti < 1 / 2 <;> by_cases htj : tj < 1 / 2
  · rw [if_pos hti] at hi
    rw [if_pos htj] at hj
    simp only [Option.some.injEq] at hi hj
    omega
  · rw [if_pos hti] at hi
    rw [if_neg htj] at hj
    simp only [Option.some.injEq] at hi hj
    have hlb : 0 ≤ ⌊(tj - 1 / 2) * 2 * 200⌋ := by
      apply Int.floor_nonneg.mpr
      have := not_lt.mp htj
      nlinarith
    omega
  · exact absurd (lt_of_le_of_lt ht htj) hti
  · rw [if_neg hti] at hi
    rw [if_neg htj] at hj
    simp only [Option.some.injEq] at hi hj
    have hm : ⌊(ti - 1 / 2) * 2 * 200⌋ ≤ ⌊(tj - 1 / 2) * 2 * 200⌋ :=
      Int.floor_le_floor (by nlinarith)
    omega

theorem generateColorPalette_getD (n i : ℕ) (hi : i < n) :
    (generateColorPalette n).getD i gray = paletteEntry n i := by
  have hlen : i < (generateColorPalette n).length := by
    simp [generateColorPalette, hi]
  rw [List.getD_eq_getElem _ _ hlen]
  simp [generateColorPalette]

/-- C9: for every `n ≥ 1`, `generateColorPalette` returns exactly `n`
triples; as the index increases the red channel never decreases and the
green channel never increases (stated over the channels that are numbers;
for `n ≥ 2` every channel is a number), and the blue channel is `0` in every
triple. -/
theorem C9_palette_shape (n : ℕ) (hn : 1 ≤ n) :
    (generateColorPalette n).length = n ∧
    (∀ c ∈ generateColorPalette n, c.2.2 = some 0) ∧
    (∀ i j ri rj, i ≤ j → j < n →
      ((generateColorPalette n).getD i gray).1 = some ri →
      ((generateColorPalette n).getD j gray).1 = some rj → ri ≤ rj) ∧
    (∀ i j gi gj, i ≤ j → j < n →
      ((generateColorPalette n).getD i gray).2.1 = some gi →
      ((generateColorPalette n).getD j gray).2.1 = some gj → gj ≤ gi) ∧
    (2 ≤ n → ∀ i < n, ∃ r g,
      (generateColorPalette n).getD i gray = (some r, some g, some 0)) := by
  refine ⟨by simp [generateColorPalette], ?_, ?_, ?_, ?_⟩
  · intro c hc
    rw [generateColorPalette, List.mem_map] at hc
    obtain ⟨i, _, rfl⟩ := hc
    exact paletteEntry_blue n i
  · intro i j ri rj hij hj hri hrj
    rcases Nat.lt_or_ge n 2 with h1 | h2
    · have hn1 : n = 1 := by omega
      subst hn1
      rw [generateColorPalette_getD 1 i (by omega)] at hri
      simp [paletteEntry] at hri
    · rw [generateColorPalette_getD n i (lt_of_le_of_lt hij hj)] at hri
      rw [generateColorPalette_getD n j hj] at hrj
      exact paletteEntry_red_mono n i j h2 hij ri rj hri hrj
  · intro i j gi gj hij hj hgi hgj
    rcases Nat.lt_or_ge n 2 with h1 | h2
    · have hn1 : n = 1 := by omega
      subst hn1
      rw [generateColorPalette_getD 1 i (by omega)] at hgi
      simp [paletteEntry] at hgi
    · rw [generateColorPalette_getD n i (lt_of_le_of_lt hij hj)] at hgi
      rw [generateColorPalette_getD n j hj] at hgj
      exact paletteEntry_green_antitone n i j h2 hij gi gj hgi hgj
  · intro h2 i hi
    rw [generateColorPalette_getD n i hi, paletteEntry_ne_one n i (by omega)]
    split
    · exact ⟨_, _, rfl⟩
    · exact ⟨_, _, rfl⟩

/-- Witness for C9 at `n = 3`. -/
theorem C9_palette_shape_witness :
    (generateColorPalette 3).length = 3 ∧
    (∀ c ∈ generateColorPalette 3, c.2.2 = some 0) ∧
    (∀ i j ri rj, i ≤ j → j < 3 →
      ((generateColorPalette 3).getD i gray).1 = some ri →
      ((generateColorPalette 3).getD j gray).1 = some rj → ri ≤ rj) ∧
    (∀ i j gi gj, i ≤ j → j < 3 →
      ((generateColorPalette 3).getD i gray).2.1 = some gi →
      ((generateColorPalette 3).getD j gray).2.1 = some gj → gj ≤ gi) ∧
    (2 ≤ 3 → ∀ i < 3, ∃ r g,
      (generateColorPalette 3).getD i gray = (some r, some g, some 0)) :=
  C9_palette_shape 3 (by decide)

/-! ### Breaks Solver: the inner minimisation loop -/

theorem oLt_irrefl (x : Option ℚ) : oLt x x = false := by
  cases x with
  | none => rfl
  | some a => simp [oLt]

theorem oLe_refl (x : Option ℚ) : oLe x x = true := by
  simp [oLe, oLt_irrefl]

theorem oLe_none (x : Option ℚ) : oLe x none = true := by
  simp [oLe, oLt]

theorem oLt_none_of_some (a : ℚ) : oLt (some a) none = true := rfl

theorem eq_none_of_not_oLt_none (x : Option ℚ) (h : ¬ oLt x none = true) : x = none := by
  cases x with
  | none => rfl
  | some a => exact absurd rfl h

theorem oLt_oLe_trans (x y z : Option ℚ) (h1 : oLt x y = true) (h2 : oLe y z = true) :
    oLt x z = true := by
  cases x with
  | none => simp [oLt] at h1
  | some a =>
    cases y with
    | none =>
      cases z with
      | none => rfl
      | some c => simp [oLe, oLt] at h2
    | some b =>
      cases z with
      | none => rfl
      | some c =>
        simp only [oLt, decide_eq_true_eq] at h1 ⊢
        simp only [oLe, oLt, Bool.not_eq_true', decide_eq_false_iff_not, not_lt] at h2
        exact lt_of_lt_of_le h1 h2

theorem oLe_of_not_oLt (x y : Option ℚ) (h : ¬ oLt x y = true) : oLe y x = true := by
  simp [oLe, h]

theorem oLe_some_some (a b : ℚ) : oLe (some a) (some b) = true ↔ a ≤ b := by
  simp [oLe, oLt]

theorem oLe_of_oLt (x y : Option ℚ) (h : oLt x y = true) : oLe x y = true := by
  cases x with
  | none => simp [oLt] at h
  | some a =>
    cases y with
    | none => exact oLe_none _
    | some b =>
      simp only [oLt, decide_eq_true_eq] at h
      exact (oLe_some_some a b).mpr (le_of_lt h)

theorem isSome_of_oLe_some (x : Option ℚ) (c : ℚ) (h : oLe x (some c) = true) :
    ∃ q, x = some q ∧ q ≤ c := by
  cases x with
  | none => simp [oLe, oLt] at h
  | some a =>
    exact ⟨a, rfl, (oLe_some_some a c).mp h⟩

/-- The inner `for (k = i; k <= j; k++)` loop of the solver: scan the
candidate values `f k` keeping the first strict improvement, starting from
`lowerClassLimits[j][i] = 0` and `varianceCombinations[j][i] = Infinity`. -/
def minFold (f : ℕ → Option ℚ) (l : List ℕ) : ℕ × Option ℚ :=
  l.foldl (fun acc k => if oLt (f k) acc.2 then (k, f k) else acc) (0, none)

theorem minFold_concat (f : ℕ → Option ℚ) (l : List ℕ) (k : ℕ) :
    minFold f (l ++ [k]) =
      (if oLt (f k) (minFold f l).2 then (k, f k) else minFold f l) := by
  unfold minFold
  rw [List.foldl_append]
  rfl

/-- Characterisation of the first-strict-improvement minimisation over
`range' a c`: either no candidate is finite and the accumulator survives,
or the result is the first candidate attaining the minimum. -/
theorem minFold_spec (f : ℕ → Option ℚ) (a c : ℕ) :
    (minFold f (List.range' a c) = (0, none) ∧
      ∀ k, a ≤ k → k < a + c → f k = none) ∨
    (a ≤ (minFold f (List.range' a c)).1 ∧ (minFold f (List.range' a c)).1 < a + c ∧
      (minFold f (List.range' a c)).2 = f (minFold f (List.range' a c)).1 ∧
      (∀ k, a ≤ k → k < a + c → oLe (minFold f (List.range' a c)).2 (f k) = true) ∧
      (∀ k, a ≤ k → k < (minFold f (List.range' a c)).1 →
        oLt (minFold f (List.range' a c)).2 (f k) = true)) := by
  induction c with
  | zero =>
    left
    constructor
    · rfl
    · intro k hk1 hk2
      omega
  | succ c ih =>
    have hsplit : List.range' a (c + 1) = List.range' a c ++ [a + c] := by
      rw [show c + 1 = 1 + c from Nat.add_comm c 1]
      have h1 := List.range'_append_1 a c 1
      simp only [List.range'_one] at h1
      exact h1.symm
    rw [hsplit, minFold_concat]
    rcases ih with ⟨hres, hall⟩ | ⟨hlb, hub, hval, hmin, hfirst⟩
    · rw [hres]
      by_cases hnew : oLt (f (a + c)) none = true
      · rw [if_pos hnew]
        obtain ⟨q, hq⟩ : ∃ q, f (a + c) = some q := by
          cases hfk : f (a + c) with
          | none => rw [hfk] at hnew; simp [oLt] at hnew
          | some q => exact ⟨q, rfl⟩
        right
        refine ⟨by omega, by omega, rfl, ?_, ?_⟩
        · intro k hk1 hk2
          rcases Nat.lt_or_ge k (a + c) with hk | hk
          · rw [hall k hk1 hk]
            exact oLe_none _
          · have : k = a + c := by omega
            subst this
            exact oLe_refl _
        · intro k hk1 hk2
          rw [hall k hk1 (by omega), hq]
          rfl
      · rw [if_neg hnew]
        left
        refine ⟨rfl, ?_⟩
        intro k hk1 hk2
        rcases Nat.lt_or_ge k (a + c) with hk | hk
        · exact hall k hk1 hk
        · have hka : k = a + c := by omega
          subst hka
          exact eq_none_of_not_oLt_none _ hnew
    · by_cases hnew : oLt (f (a + c)) (minFold f (List.range' a c)).2 = true
      · rw [if_pos hnew]
        right
        refine ⟨by omega, by omega, rfl, ?_, ?_⟩
        · intro k hk1 hk2
          rcases Nat.lt_or_ge k (a + c) with hk | hk
          · exact oLe_of_oLt _ _ (oLt_oLe_trans _ _ _ hnew (hmin k hk1 hk))
          · have : k = a + c := by omega
            subst this
            exact oLe_refl _
        · intro k hk1 hk2
          have h1 := hmin k hk1 (by omega)
          exact oLt_oLe_trans _ _ _ hnew h1
      · rw [if_neg hnew]
        right
        refine ⟨hlb, by omega, hval, ?_, hfirst⟩
        intro k hk1 hk2
        rcases Nat.lt_or_ge k (a + c) with hk | hk
        · exact hmin k hk1 hk
        · have : k = a + c := by omega
          subst this
          exact oLe_of_not_oLt _ _ hnew

/-- The candidate value scanned by the inner loop at split index `k` for the
cell `(class count i, prefix length j)`:
`varianceCombinations[k-1][i-1] + varianceWithin(sorted, k-1, j-1)`. -/
def jenksCand (s : List ℚ) (i j k : ℕ) : Option ℚ :=
  oAdd (jenksDP s (i - 1) (k - 1)).2 (varianceWithin s (k - 1) (j - 1))

theorem jenksDP_rec (s : List ℚ) (i j : ℕ) (hi : 2 ≤ i) (hj : 2 ≤ j) :
    jenksDP s i j = minFold (jenksCand s i j) (List.range' i (j + 1 - i)) := by
  match i, hi, j, hj with
  | i + 2, _, j + 2, _ => rfl

theorem jenksDP_one_fst (s : List ℚ) (j : ℕ) (hj : 1 ≤ j) : (jenksDP s 1 j).1 = 1 := by
  match j, hj with
  | 1, _ => rfl
  | j + 2, _ => rfl

theorem varianceWithin_nonneg (s : List ℚ) (a b : ℕ) : 0 ≤ varianceWithin s a b := by
  unfold varianceWithin
  split
  · exact le_refl 0
  · apply List.sum_nonneg
    intro x hx
    rw [List.mem_map] at hx
    obtain ⟨y, _, rfl⟩ := hx
    exact sq_nonneg _

theorem varianceWithin_zero_of_le (s : List ℚ) (a b : ℕ) (h : b ≤ a) :
    varianceWithin s a b = 0 := by
  unfold varianceWithin
  exact if_pos h

/-- The cells of the dynamic program in the region `1 ≤ i ≤ j`: the stored
variance is a finite nonnegative value, and for `i ≥ 2` the recorded split
index lies in `[i, j]`. -/
theorem jenksDP_invariant (s : List ℚ) (i : ℕ) :
    ∀ j, 1 ≤ i → i ≤ j →
      (∃ q, (jenksDP s i j).2 = some q ∧ 0 ≤ q) ∧
      (2 ≤ i → i ≤ (jenksDP s i j).1 ∧ (jenksDP s i j).1 ≤ j) := by
  induction i with
  | zero =>
    intro j h
    omega
  | succ i ih =>
    intro j h1 hij
    by_cases hi2 : 2 ≤ i + 1
    · have hj2 : 2 ≤ j := by omega
      rw [jenksDP_rec s (i + 1) j hi2 hj2]
      rcases minFold_spec (jenksCand s (i + 1) j) (i + 1) (j + 1 - (i + 1)) with
        ⟨_, hall⟩ | ⟨hlb, hub, hval, _, _⟩
      · exfalso
        have hcand := hall (i + 1) (le_refl _) (by omega)
        obtain ⟨q, hq, _⟩ := (ih i (by omega) (le_refl i)).1
        rw [jenksCand, Nat.add_sub_cancel, hq] at hcand
        simp [oAdd] at hcand
      · constructor
        · obtain ⟨q, hq, hq0⟩ :=
            (ih ((minFold (jenksCand s (i + 1) j) (List.range' (i + 1) (j + 1 - (i + 1)))).1 - 1)
              (by omega) (by omega)).1
          refine ⟨q + varianceWithin s
            ((minFold (jenksCand s (i + 1) j) (List.range' (i + 1) (j + 1 - (i + 1)))).1 - 1)
            (j - 1), ?_, ?_⟩
          · rw [hval, jenksCand, Nat.add_sub_cancel, hq]
            rfl
          · exact add_nonneg hq0 (varianceWithin_nonneg _ _ _)
        · intro _
          exact ⟨hlb, by omega⟩
    · have hi1 : i = 0 := by omega
      subst hi1
      match j, hij with
      | 1, _ =>
        exact ⟨⟨0, rfl, le_refl 0⟩, by omega⟩
      | j + 2, _ =>
        refine ⟨⟨varianceWithin s 0 (j + 1), rfl, varianceWithin_nonneg _ _ _⟩, by omega⟩

/-- The DP cell `(i, j)` with `i > 1`, `j ≥ i` holds the minimum of the
candidates `V[k-1][i-1] + varianceWithin(sorted, k-1, j-1)` over `k ∈ [i, j]`,
with the first `k` attaining it recorded as split index. -/
theorem jenksDP_min_characterisation (s : List ℚ) (i j : ℕ) (hi : 1 < i) (hij : i ≤ j) :
    (∀ a b : ℕ, b ≤ a → varianceWithin s a b = 0) ∧
    ∃ k0, i ≤ k0 ∧ k0 ≤ j ∧ (jenksDP s i j).1 = k0 ∧
      (jenksDP s i j).2 =
        oAdd (jenksDP s (i - 1) (k0 - 1)).2 (varianceWithin s (k0 - 1) (j - 1)) ∧
      (∀ k, i ≤ k → k ≤ j → oLe (jenksDP s i j).2
        (oAdd (jenksDP s (i - 1) (k - 1)).2 (varianceWithin s (k - 1) (j - 1))) = true) ∧
      (∀ k, i ≤ k → k < k0 → oLt (jenksDP s i j).2
        (oAdd (jenksDP s (i - 1) (k - 1)).2 (varianceWithin s (k - 1) (j - 1))) = true) := by
  refine ⟨fun a b h => varianceWithin_zero_of_le s a b h, ?_⟩
  have hi2 : 2 ≤ i := hi
  have hj2 : 2 ≤ j := by omega
  rw [jenksDP_rec s i j hi2 hj2]
  rcases minFold_spec (jenksCand s i j) i (j + 1 - i) with
    ⟨_, hall⟩ | ⟨hlb, hub, hval, hmin, hfirst⟩
  · exfalso
    have hcand := hall i (le_refl _) (by omega)
    obtain ⟨q, hq, _⟩ := (jenksDP_invariant s (i - 1) (i - 1) (by omega) (le_refl _)).1
    rw [jenksCand, hq] at hcand
    simp [oAdd] at hcand
  · refine ⟨(minFold (jenksCand s i j) (List.range' i (j + 1 - i))).1,
      hlb, by omega, rfl, ?_, ?_, ?_⟩
    · rw [hval, jenksCand]
    · intro k hk1 hk2
      have := hmin k hk1 (by omega)
      rwa [jenksCand] at this
    · intro k hk1 hk2
      have := hfirst k hk1 hk2
      rwa [jenksCand] at this

/-- C5: for every class count `i > 1` and prefix length `j ≥ i`, the cell of
the dynamic program holds the minimum over split indices `k ∈ [i, j]` of
`V[k-1][i-1] + varianceWithin(sorted, k-1, j-1)`, and the recorded split
index is the smallest `k` attaining that minimum (every earlier candidate is
strictly larger); the variance of an empty or single-element segment is `0`. -/
theorem C5_dp_recurrence (s : List ℚ) (i j : ℕ) (hi : 1 < i) (hij : i ≤ j) :
    (∀ a b : ℕ, b ≤ a → varianceWithin s a b = 0) ∧
    ∃ k0, i ≤ k0 ∧ k0 ≤ j ∧ (jenksDP s i j).1 = k0 ∧
      (jenksDP s i j).2 =
        oAdd (jenksDP s (i - 1) (k0 - 1)).2 (varianceWithin s (k0 - 1) (j - 1)) ∧
      (∀ k, i ≤ k → k ≤ j → oLe (jenksDP s i j).2
        (oAdd (jenksDP s (i - 1) (k - 1)).2 (varianceWithin s (k - 1) (j - 1))) = true) ∧
      (∀ k, i ≤ k → k < k0 → oLt (jenksDP s i j).2
        (oAdd (jenksDP s (i - 1) (k - 1)).2 (varianceWithin s (k - 1) (j - 1))) = true) :=
  jenksDP_min_characterisation s i j hi hij

/-- Witness for C5 on the sorted sample `[1, 2, 3]` at `i = 2`, `j = 3`. -/
theorem C5_dp_recurrence_witness :
    (∀ a b : ℕ, b ≤ a → varianceWithin [1, 2, 3] a b = 0) ∧
    ∃ k0, 2 ≤ k0 ∧ k0 ≤ 3 ∧ (jenksDP [1, 2, 3] 2 3).1 = k0 ∧
      (jenksDP [1, 2, 3] 2 3).2 =
        oAdd (jenksDP [1, 2, 3] (2 - 1) (k0 - 1)).2 (varianceWithin [1, 2, 3] (k0 - 1) (3 - 1)) ∧
      (∀ k, 2 ≤ k → k ≤ 3 → oLe (jenksDP [1, 2, 3] 2 3).2
        (oAdd (jenksDP [1, 2, 3] (2 - 1) (k - 1)).2
          (varianceWithin [1, 2, 3] (k - 1) (3 - 1))) = true) ∧
      (∀ k, 2 ≤ k → k < k0 → oLt (jenksDP [1, 2, 3] 2 3).2
        (oAdd (jenksDP [1, 2, 3] (2 - 1) (k - 1)).2
          (varianceWithin [1, 2, 3] (k - 1) (3 - 1))) = true) :=
  C5_dp_recurrence [1, 2, 3] 2 3 (by omega) (by omega)

/-! ### Duplicate removal -/

theorem keepFirstAux_sublist (seen l : List ℚ) : List.Sublist (keepFirstAux seen l) l := by
  induction l generalizing seen with
  | nil => exact List.nil_sublist []
  | cons x xs ih =>
    by_cases h : x ∈ seen
    · simp only [keepFirstAux, if_pos h]
      exact (ih seen).cons x
    · simp only [keepFirstAux, if_neg h]
      exact (ih (x :: seen)).cons₂ x

theorem mem_keepFirstAux (a : ℚ) (seen l : List ℚ) :
    a ∈ keepFirstAux seen l ↔ a ∈ l ∧ a ∉ seen := by
  induction l generalizing seen with
  | nil => simp [keepFirstAux]
  | cons x xs ih =>
    by_cases h : x ∈ seen
    · have hrw : keepFirstAux seen (x :: xs) = keepFirstAux seen xs := by
        simp only [keepFirstAux, if_pos h]
      rw [hrw, ih]
      constructor
      · rintro ⟨h1, h2⟩
        exact ⟨List.mem_cons_of_mem x h1, h2⟩
      · rintro ⟨h1, h2⟩
        rcases List.mem_cons.mp h1 with h3 | h3
        · subst h3
          exact absurd h h2
        · exact ⟨h3, h2⟩
    · have hrw : keepFirstAux seen (x :: xs) = x :: keepFirstAux (x :: seen) xs := by
        simp only [keepFirstAux, if_neg h]
      rw [hrw]
      constructor
      · intro h1
        rcases List.mem_cons.mp h1 with h3 | h3
        · subst h3
          exact ⟨List.mem_cons_self a xs, h⟩
        · obtain ⟨h4, h5⟩ := (ih (x :: seen)).mp h3
          exact ⟨List.mem_cons_of_mem x h4, fun hc => h5 (List.mem_cons_of_mem x hc)⟩
      · rintro ⟨h1, h2⟩
        by_cases hax : a = x
        · subst hax
          exact List.mem_cons_self a _
        · rcases List.mem_cons.mp h1 with h3 | h3
          · exact absurd h3 hax
          · exact List.mem_cons_of_mem x ((ih (x :: seen)).mpr ⟨h3, fun hc =>
              (List.mem_cons.mp hc).elim hax h2⟩)

theorem keepFirstAux_nodup (seen l : List ℚ) : (keepFirstAux seen l).Nodup := by
  induction l generalizing seen with
  | nil => exact List.nodup_nil
  | cons x xs ih =>
    by_cases h : x ∈ seen
    · simp only [keepFirstAux, if_pos h]
      exact ih seen
    · simp only [keepFirstAux, if_neg h]
      refine List.nodup_cons.mpr ⟨?_, ih (x :: seen)⟩
      intro hc
      exact ((mem_keepFirstAux x (x :: seen) xs).mp hc).2 (List.mem_cons_self _ _)

theorem keepFirst_sublist (l : List ℚ) : List.Sublist (keepFirst l) l := keepFirstAux_sublist [] l

theorem keepFirst_mem (a : ℚ) (l : List ℚ) : a ∈ keepFirst l ↔ a ∈ l := by
  rw [keepFirst, mem_keepFirstAux]
  simp

theorem keepFirst_nodup (l : List ℚ) : (keepFirst l).Nodup := keepFirstAux_nodup [] l

theorem keepFirst_length_le (l : List ℚ) : (keepFirst l).length ≤ l.length :=
  (keepFirst_sublist l).length_le

theorem keepFirst_sorted_le (l : List ℚ) (hs : l.Sorted (· ≤ ·)) :
    (keepFirst l).Sorted (· ≤ ·) :=
  List.Pairwise.sublist (keepFirst_sublist l) hs

theorem keepFirst_sorted_lt (l : List ℚ) (hs : l.Sorted (· ≤ ·)) :
    (keepFirst l).Sorted (· < ·) := by
  have h1 := keepFirst_sorted_le l hs
  have h2 := keepFirst_nodup l
  exact (h1.and h2).imp fun h => lt_of_le_of_ne h.1 h.2

theorem keepFirst_cons (x : ℚ) (xs : List ℚ) :
    keepFirst (x :: xs) = x :: keepFirstAux [x] xs := by
  rw [keepFirst]
  simp [keepFirstAux]

/-! ### Sorted lists: index monotonicity and last element -/

theorem sorted_getD_mono (s : List ℚ) (hs : s.Sorted (· ≤ ·)) (p q : ℕ) (hpq : p ≤ q)
    (hq : q < s.length) : s.getD p 0 ≤ s.getD q 0 := by
  have hp : p < s.length := lt_of_le_of_lt hpq hq
  rw [List.getD_eq_getElem s 0 hp, List.getD_eq_getElem s 0 hq]
  have := hs.rel_get_of_le (a := ⟨p, hp⟩) (b := ⟨q, hq⟩) hpq
  simpa using this

theorem sorted_le_of_getLast? (l : List ℚ) (hs : l.Sorted (· ≤ ·)) (b : ℚ)
    (hb : l.getLast? = some b) : ∀ x ∈ l, x ≤ b := by
  intro x hx
  obtain ⟨p, hp, hxp⟩ := List.mem_iff_getElem.mp hx
  rw [List.getLast?_eq_getElem?] at hb
  have hlen : l.length - 1 < l.length := by
    cases l
    · simp at hx
    · simp
  rw [List.getElem?_eq_getElem hlen] at hb
  have hb2 : l[l.length - 1] = b := by
    injection hb
  rw [← hxp, ← hb2]
  have := hs.rel_get_of_le (a := ⟨p, hp⟩) (b := ⟨l.length - 1, hlen⟩) (by
    simp only [Fin.mk_le_mk]
    omega)
  simpa using this

theorem keepFirst_getLast? (l : List ℚ) (hs : l.Sorted (· ≤ ·)) (hne : l ≠ []) :
    (keepFirst l).getLast? = l.getLast? := by
  have hkne : keepFirst l ≠ [] := by
    cases l with
    | nil => exact absurd rfl hne
    | cons x xs =>
      rw [keepFirst_cons]
      exact List.cons_ne_nil _ _
  cases ha : (keepFirst l).getLast? with
  | none => exact absurd (List.getLast?_eq_none_iff.mp ha) hkne
  | some a =>
    cases hb : l.getLast? with
    | none => exact absurd (List.getLast?_eq_none_iff.mp hb) hne
    | some b =>
      have hab : a ≤ b := sorted_le_of_getLast? l hs b hb a
        ((keepFirst_mem a l).mp (List.mem_of_getLast?_eq_some ha))
      have hba : b ≤ a := sorted_le_of_getLast? (keepFirst l) (keepFirst_sorted_le l hs) a ha b
        ((keepFirst_mem b l).mpr (List.mem_of_getLast?_eq_some hb))
      rw [le_antisymm hab hba]

/-! ### The extraction loop and the raw breaks array -/

theorem backtrack_length (s : List ℚ) (j : ℕ) : ∀ k, (backtrack s k j).length = j := by
  induction j with
  | zero => intro k; rfl
  | succ j ih =>
    intro k
    show (backtrack s ((jenksDP s (j + 1) k).1 - 1) j ++ [_]).length = j + 1
    rw [List.length_append, ih]
    simp

theorem backtrack_spec (s : List ℚ) (hs : s.Sorted (· ≤ ·)) :
    ∀ j, 1 ≤ j → ∀ k, j ≤ k → k ≤ s.length →
      (backtrack s k j).Sorted (· ≤ ·) ∧
      (∀ x ∈ backtrack s k j, ∃ p, p < k ∧ x = s.getD p 0) := by
  intro j
  induction j with
  | zero => intro h; omega
  | succ j ih =>
    intro _ k hjk hk
    by_cases hj0 : j = 0
    · subst hj0
      have hL : (jenksDP s 1 k).1 = 1 := jenksDP_one_fst s k (by omega)
      have hshape : backtrack s k 1 = [s.getD 0 0] := by
        show backtrack s ((jenksDP s 1 k).1 - 1) 0 ++ [s.getD ((jenksDP s 1 k).1 - 1) 0] =
          [s.getD 0 0]
        rw [hL]
        rfl
      rw [hshape]
      refine ⟨List.sorted_singleton _, ?_⟩
      intro x hx
      rw [List.mem_singleton] at hx
      exact ⟨0, by omega, hx⟩
    · have hj1 : 1 ≤ j := by omega
      have hinv := (jenksDP_invariant s (j + 1) k (by omega) (by omega)).2 (by omega)
      have hshape : backtrack s k (j + 1) =
          backtrack s ((jenksDP s (j + 1) k).1 - 1) j ++
            [s.getD ((jenksDP s (j + 1) k).1 - 1) 0] := rfl
      obtain ⟨hsort, hmem⟩ := ih hj1 ((jenksDP s (j + 1) k).1 - 1) (by omega) (by omega)
      rw [hshape]
      constructor
      · rw [List.Sorted, List.pairwise_append]
        refine ⟨hsort, List.sorted_singleton _, ?_⟩
        intro a ha b hb
        rw [List.mem_singleton] at hb
        subst hb
        obtain ⟨p, hp, hap⟩ := hmem a ha
        rw [hap]
        exact sorted_getD_mono s hs p ((jenksDP s (j + 1) k).1 - 1) (by omega) (by omega)
      · intro x hx
        rw [List.mem_append] at hx
        rcases hx with hx | hx
        · obtain ⟨p, hp, hxp⟩ := hmem x hx
          exact ⟨p, by omega, hxp⟩
        · rw [List.mem_singleton] at hx
          exact ⟨(jenksDP s (j + 1) k).1 - 1, by omega, hx⟩

theorem rawBreaks_spec (s : List ℚ) (n : ℕ) (hs : s.Sorted (· ≤ ·)) (hn : 1 ≤ n)
    (hlen : n ≤ s.length) :
    (rawBreaks s n).length = n + 1 ∧
    (rawBreaks s n).Sorted (· ≤ ·) ∧
    (∃ tl, rawBreaks s n = s.getD 0 0 :: tl) ∧
    (rawBreaks s n).getLast? = some (s.getD (s.length - 1) 0) ∧
    (∀ x ∈ rawBreaks s n, ∃ p, p < s.length ∧ x = s.getD p 0) := by
  have hslen : 1 ≤ s.length := le_trans hn hlen
  obtain ⟨hbsort, hbmem⟩ := backtrack_spec s hs n hn s.length hlen (le_refl _)
  have hshape : rawBreaks s n =
      (s.getD 0 0 :: (backtrack s s.length n).drop 1) ++ [s.getD (s.length - 1) 0] := by
    rw [rawBreaks, if_neg (by omega)]
  have hmidmem : ∀ x ∈ (backtrack s s.length n).drop 1, ∃ p, p < s.length ∧ x = s.getD p 0 :=
    fun x hx => hbmem x (List.drop_subset 1 _ hx)
  refine ⟨?_, ?_, ?_, ?_, ?_⟩
  · rw [hshape]
    rw [List.length_append, List.length_cons, List.length_drop, backtrack_length]
    simp
    omega
  · rw [hshape, List.Sorted, List.pairwise_append]
    refine ⟨?_, List.sorted_singleton _, ?_⟩
    · rw [List.pairwise_cons]
      refine ⟨?_, List.Pairwise.sublist (List.drop_sublist 1 _) hbsort⟩
      intro a ha
      obtain ⟨p, hp, hap⟩ := hmidmem a ha
      rw [hap]
      exact sorted_getD_mono s hs 0 p (by omega) hp
    · intro a ha b hb
      rw [List.mem_singleton] at hb
      subst hb
      rcases List.mem_cons.mp ha with ha | ha
      · rw [ha]
        exact sorted_getD_mono s hs 0 (s.length - 1) (by omega) (by omega)
      · obtain ⟨p, hp, hap⟩ := hmidmem a ha
        rw [hap]
        exact sorted_getD_mono s hs p (s.length - 1) (by omega) (by omega)
  · exact ⟨_, by rw [hshape, List.cons_append]⟩
  · rw [hshape]
    exact List.getLast?_concat _
  · intro x hx
    rw [hshape, List.mem_append] at hx
    rcases hx with hx | hx
    · rcases List.mem_cons.mp hx with hx | hx
      · exact ⟨0, by omega, hx⟩
      · exact hmidmem x hx
    · rw [List.mem_singleton] at hx
      exact ⟨s.length - 1, by omega, hx⟩

/-- C1: for a non-empty numeric sample whose unique-value count exceeds
`k ≥ 1`, `jenksBreaks` returns a sequence of length at most `k + 1` that is
strictly ascending (the code removes duplicates before returning), whose
first element is the minimum of the sample and whose last element is the
maximum of the sample. -/
theorem C1_breaks_shape (data : List ℚ) (k : ℕ) (hk : 1 ≤ k) (hne : data ≠ [])
    (hu : k < data.dedup.length) :
    (jenksBreaks (data.map some) k).length ≤ k + 1 ∧
    (jenksBreaks (data.map some) k).Sorted (· < ·) ∧
    (∃ a, (jenksBreaks (data.map some) k).head? = some a ∧ a ∈ data ∧
      ∀ x ∈ data, a ≤ x) ∧
    (∃ b, (jenksBreaks (data.map some) k).getLast? = some b ∧ b ∈ data ∧
      ∀ x ∈ data, x ≤ b) := by
  rcases data with _ | ⟨d, ds⟩
  · exact absurd rfl hne
  have hdatalen : k < (d :: ds).length := by
    have h1 := (List.dedup_sublist (d :: ds)).length_le
    omega
  have hslen : ((d :: ds).insertionSort (· ≤ ·)).length = (d :: ds).length :=
    List.length_insertionSort _ _
  have hout : jenksBreaks ((d :: ds).map some) k =
      keepFirst (rawBreaks ((d :: ds).insertionSort (· ≤ ·)) k) := by
    unfold jenksBreaks
    rw [if_neg (by simp), if_neg (by simp), if_neg (by
      simp only [List.filterMap_map, Function.id_comp, List.filterMap_some]
      omega)]
    simp only [List.filterMap_map, Function.id_comp, List.filterMap_some]
  have hs := List.sorted_insertionSort (· ≤ ·) (d :: ds)
  have hsmem : ∀ x : ℚ, x ∈ (d :: ds).insertionSort (· ≤ ·) ↔ x ∈ d :: ds := by
    intro x
    exact List.mem_insertionSort _
  obtain ⟨hrlen, hrsort, ⟨tl, htl⟩, hrlast, hrmem⟩ :=
    rawBreaks_spec ((d :: ds).insertionSort (· ≤ ·)) k hs hk (by omega)
  have hraw_ne : rawBreaks ((d :: ds).insertionSort (· ≤ ·)) k ≠ [] := by
    rw [htl]
    exact List.cons_ne_nil _ _
  have hmin : ∀ x ∈ d :: ds, ((d :: ds).insertionSort (· ≤ ·)).getD 0 0 ≤ x := by
    intro x hx
    obtain ⟨p, hp, hxp⟩ := List.mem_iff_getElem.mp ((hsmem x).mpr hx)
    rw [← hxp, ← List.getD_eq_getElem _ 0 hp]
    exact sorted_getD_mono _ hs 0 p (by omega) (by omega)
  have hmax : ∀ x ∈ d :: ds,
      x ≤ ((d :: ds).insertionSort (· ≤ ·)).getD
        (((d :: ds).insertionSort (· ≤ ·)).length - 1) 0 := by
    intro x hx
    obtain ⟨p, hp, hxp⟩ := List.mem_iff_getElem.mp ((hsmem x).mpr hx)
    rw [← hxp, ← List.getD_eq_getElem _ 0 hp]
    exact sorted_getD_mono _ hs p _ (by omega) (by omega)
  have hgetD_mem : ∀ p, p < ((d :: ds).insertionSort (· ≤ ·)).length →
      ((d :: ds).insertionSort (· ≤ ·)).getD p 0 ∈ d :: ds := by
    intro p hp
    rw [List.getD_eq_getElem _ 0 hp]
    exact (hsmem _).mp (List.getElem_mem hp)
  rw [hout]
  refine ⟨?_, keepFirst_sorted_lt _ hrsort, ?_, ?_⟩
  · calc (keepFirst (rawBreaks ((d :: ds).insertionSort (· ≤ ·)) k)).length
        ≤ (rawBreaks ((d :: ds).insertionSort (· ≤ ·)) k).length := keepFirst_length_le _
      _ = k + 1 := hrlen
  · refine ⟨((d :: ds).insertionSort (· ≤ ·)).getD 0 0, ?_, ?_, hmin⟩
    · rw [htl, keepFirst_cons]
      rfl
    · exact hgetD_mem 0 (by omega)
  · refine ⟨((d :: ds).insertionSort (· ≤ ·)).getD
      (((d :: ds).insertionSort (· ≤ ·)).length - 1) 0, ?_, ?_, hmax⟩
    · rw [keepFirst_getLast? _ hrsort hraw_ne]
      exact hrlast
    · exact hgetD_mem _ (by omega)

/-- Witness for C1 on the sample `[1, …, 10]` with `k = 3`. -/
theorem C1_breaks_shape_witness :
    (jenksBreaks ([(1:ℚ), 2, 3, 4, 5, 6, 7, 8, 9, 10].map some) 3).length ≤ 3 + 1 ∧
    (jenksBreaks ([(1:ℚ), 2, 3, 4, 5, 6, 7, 8, 9, 10].map some) 3).Sorted (· < ·) ∧
    (∃ a, (jenksBreaks ([(1:ℚ), 2, 3, 4, 5, 6, 7, 8, 9, 10].map some) 3).head? = some a ∧
      a ∈ [(1:ℚ), 2, 3, 4, 5, 6, 7, 8, 9, 10] ∧
      ∀ x ∈ [(1:ℚ), 2, 3, 4, 5, 6, 7, 8, 9, 10], a ≤ x) ∧
    (∃ b, (jenksBreaks ([(1:ℚ), 2, 3, 4, 5, 6, 7, 8, 9, 10].map some) 3).getLast? = some b ∧
      b ∈ [(1:ℚ), 2, 3, 4, 5, 6, 7, 8, 9, 10] ∧
      ∀ x ∈ [(1:ℚ), 2, 3, 4, 5, 6, 7, 8, 9, 10], x ≤ b) :=
  C1_breaks_shape [1, 2, 3, 4, 5, 6, 7, 8, 9, 10] 3 (by omega) (by simp) (by decide)

/-! ### Variance of constant segments -/

theorem list_sum_zero_of_nonneg (l : List ℚ) (h : ∀ x ∈ l, 0 ≤ x) (hsum : l.sum = 0) :
    ∀ x ∈ l, x = 0 := by
  induction l with
  | nil => simp
  | cons y ys ih =>
    have hy := h y (List.mem_cons_self _ _)
    have hys : 0 ≤ ys.sum := List.sum_nonneg fun x hx => h x (List.mem_cons_of_mem _ hx)
    rw [List.sum_cons] at hsum
    have hy0 : y = 0 := by linarith
    have hsum0 : ys.sum = 0 := by linarith
    intro x hx
    rcases List.mem_cons.mp hx with rfl | hx
    · exact hy0
    · exact ih (fun x hx => h x (List.mem_cons_of_mem _ hx)) hsum0 x hx

theorem ssd_zero_of_const (l : List ℚ) (h : ∀ x ∈ l, ∀ y ∈ l, x = y) :
    (l.map (fun val => (val - l.sum / (l.length : ℚ)) ^ 2)).sum = 0 := by
  cases l with
  | nil => simp
  | cons c rest =>
    have hall : ∀ x ∈ c :: rest, x = c := fun x hx => h x hx c (List.mem_cons_self _ _)
    have hlen : ((c :: rest).length : ℚ) ≠ 0 := by
      simp only [List.length_cons]
      positivity
    have hmean : (c :: rest).sum / ((c :: rest).length : ℚ) = c := by
      rw [List.sum_eq_card_nsmul _ c hall, nsmul_eq_mul]
      exact mul_div_cancel_left₀ c hlen
    apply List.sum_eq_zero
    intro x hx
    rw [List.mem_map] at hx
    obtain ⟨y, hy, rfl⟩ := hx
    rw [hmean, hall y hy]
    ring

theorem ssd_all_eq_mean (l : List ℚ)
    (h : (l.map (fun val => (val - l.sum / (l.length : ℚ)) ^ 2)).sum = 0) :
    ∀ x ∈ l, x = l.sum / (l.length : ℚ) := by
  have hz := list_sum_zero_of_nonneg _
    (by
      intro x hx
      rw [List.mem_map] at hx
      obtain ⟨y, _, rfl⟩ := hx
      exact sq_nonneg _) h
  intro x hx
  have := hz ((x - l.sum / (l.length : ℚ)) ^ 2) (List.mem_map_of_mem _ hx)
  have h2 : x - l.sum / (l.length : ℚ) = 0 := by
    exact pow_eq_zero_iff (by omega) |>.mp this
  linarith

theorem varianceWithin_zero_of_const (s : List ℚ) (a b : ℕ)
    (h : ∀ x ∈ (s.drop a).take (b + 1 - a), ∀ y ∈ (s.drop a).take (b + 1 - a), x = y) :
    varianceWithin s a b = 0 := by
  unfold varianceWithin
  split
  · rfl
  · exact ssd_zero_of_const _ h

theorem slice_getD (s : List ℚ) (a b i : ℕ) (hi : i < b + 1 - a) (his : a + i < s.length) :
    ((s.drop a).take (b + 1 - a)).getD i 0 = s.getD (a + i) 0 := by
  have hlt : i < ((s.drop a).take (b + 1 - a)).length := by
    rw [List.length_take, List.length_drop]
    omega
  rw [List.getD_eq_getElem _ 0 hlt, List.getD_eq_getElem _ 0 his]
  rw [List.getElem_take, List.getElem_drop]

theorem varianceWithin_const_of_zero (s : List ℚ) (a b : ℕ) (hab : a < b) (hb : b < s.length)
    (h : varianceWithin s a b = 0) : ∀ p, a ≤ p → p ≤ b → s.getD p 0 = s.getD a 0 := by
  unfold varianceWithin at h
  rw [if_neg (by omega)] at h
  have hmean := ssd_all_eq_mean ((s.drop a).take (b + 1 - a)) h
  intro p hap hpb
  have hslen : ∀ i, i < b + 1 - a → i < ((s.drop a).take (b + 1 - a)).length := by
    intro i hi
    rw [List.length_take, List.length_drop]
    omega
  have hp' : s.getD p 0 = ((s.drop a).take (b + 1 - a)).getD (p - a) 0 := by
    rw [slice_getD s a b (p - a) (by omega) (by omega)]
    congr 1
    omega
  have ha' : s.getD a 0 = ((s.drop a).take (b + 1 - a)).getD 0 0 := by
    rw [slice_getD s a b 0 (by omega) (by omega)]
    congr 1
  have hmem : ∀ i, i < b + 1 - a →
      ((s.drop a).take (b + 1 - a)).getD i 0 ∈ (s.drop a).take (b + 1 - a) := by
    intro i hi
    rw [List.getD_eq_getElem _ 0 (hslen i hi)]
    exact List.getElem_mem _
  rw [hp', ha', hmean _ (hmem (p - a) (by omega)), hmean _ (hmem 0 (by omega))]

theorem varianceWithin_append (u w : List ℚ) (a b : ℕ) (hb : b < u.length) :
    varianceWithin (u ++ w) a b = varianceWithin u a b := by
  unfold varianceWithin
  by_cases hab : a ≥ b
  · rw [if_pos hab, if_pos hab]
  · rw [if_neg hab, if_neg hab]
    have hslice : ((u ++ w).drop a).take (b + 1 - a) = (u.drop a).take (b + 1 - a) := by
      rw [List.drop_append_of_le_length (by omega)]
      rw [List.take_append_of_le_length (by
        rw [List.length_drop]
        omega)]
    rw [hslice]

/-! ### Zero-variance partitions -/

/-- There is a partition of the prefix of length `j` of `s` into exactly `i`
nonempty contiguous classes all of variance `0` (the split points being legal
for the solver's inner loop). -/
def ZP (s : List ℚ) : ℕ → ℕ → Prop
  | 0, _ => False
  | 1, j => varianceWithin s 0 (j - 1) = 0
  | i + 2, j => ∃ sp, i + 2 ≤ sp ∧ sp ≤ j ∧ ZP s (i + 1) (sp - 1) ∧
      varianceWithin s (sp - 1) (j - 1) = 0

theorem ZP_one_iff (s : List ℚ) (j : ℕ) :
    ZP s 1 j ↔ varianceWithin s 0 (j - 1) = 0 := Iff.rfl

theorem ZP_succ_iff (s : List ℚ) (i j : ℕ) (hi : 1 ≤ i) :
    ZP s (i + 1) j ↔ ∃ sp, i + 1 ≤ sp ∧ sp ≤ j ∧ ZP s i (sp - 1) ∧
      varianceWithin s (sp - 1) (j - 1) = 0 := by
  match i, hi with
  | i + 1, _ => exact Iff.rfl

theorem ZP_append (u w : List ℚ) (i : ℕ) :
    ∀ j, 1 ≤ i → 1 ≤ j → j ≤ u.length → ZP u i j → ZP (u ++ w) i j := by
  induction i with
  | zero =>
    intro j h
    omega
  | succ i ih =>
    intro j _ hj hju hzp
    by_cases hi0 : i = 0
    · subst hi0
      rw [ZP_one_iff] at hzp ⊢
      rw [varianceWithin_append u w 0 (j - 1) (by omega)]
      exact hzp
    · have hi1 : 1 ≤ i := by omega
      rw [ZP_succ_iff _ _ _ hi1] at hzp ⊢
      obtain ⟨sp, h2, h3, h4, h5⟩ := hzp
      refine ⟨sp, h2, h3, ih (sp - 1) hi1 (by omega) (by omega) h4, ?_⟩
      rw [varianceWithin_append u w (sp - 1) (j - 1) (by omega)]
      exact h5

theorem all_eq_of_keepFirst_le_one (l : List ℚ) (h : (keepFirst l).length ≤ 1) :
    ∀ x ∈ l, ∀ y ∈ l, x = y := by
  cases l with
  | nil => simp
  | cons c cs =>
    have hshape := keepFirst_cons c cs
    have haux : (keepFirstAux [c] cs).length = 0 := by
      have := congrArg List.length hshape
      simp only [List.length_cons] at this
      omega
    have hall : ∀ x ∈ cs, x = c := by
      intro x hx
      by_contra hne
      have : x ∈ keepFirstAux [c] cs := by
        rw [mem_keepFirstAux]
        refine ⟨hx, ?_⟩
        intro hc
        rcases List.mem_cons.mp hc with h1 | h1
        · exact hne h1
        · simp at h1
      rw [List.length_eq_zero.mp haux] at this
      simp at this
    intro x hx y hy
    rcases List.mem_cons.mp hx with h1 | h1 <;> rcases List.mem_cons.mp hy with h2 | h2
    · rw [h1, h2]
    · rw [h1, hall y h2]
    · rw [hall x h1, h2]
    · rw [hall x h1, hall y h2]

theorem keepFirst_length_mono (l₁ l₂ : List ℚ) (hsub : ∀ x ∈ l₁, x ∈ l₂) :
    (keepFirst l₁).length ≤ (keepFirst l₂).length := by
  rw [← List.toFinset_card_of_nodup (keepFirst_nodup l₁),
    ← List.toFinset_card_of_nodup (keepFirst_nodup l₂)]
  apply Finset.card_le_card
  intro a ha
  rw [List.mem_toFinset] at ha ⊢
  exact (keepFirst_mem _ _).mpr (hsub a ((keepFirst_mem _ _).mp ha))

theorem dropWhile_head_not (p : ℚ → Bool) (l : List ℚ) (y : ℚ) (ys : List ℚ)
    (h : l.dropWhile p = y :: ys) : ¬ p y = true := by
  induction l with
  | nil => simp at h
  | cons a as ih =>
    rw [List.dropWhile_cons] at h
    by_cases hp : p a = true
    · rw [if_pos hp] at h
      exact ih h
    · rw [if_neg hp] at h
      injection h with h1 _
      rw [← h1]
      exact hp

/-- If a sorted sample has at most `k` distinct values and at least `k`
elements, its whole length can be split into exactly `k` contiguous classes
of variance `0`. -/
theorem zp_of_uniq : ∀ (n : ℕ) (s : List ℚ) (k : ℕ), s.length = n →
    s.Sorted (· ≤ ·) → 1 ≤ k → (keepFirst s).length ≤ k → k ≤ s.length →
    ZP s k s.length := by
  intro n
  induction n using Nat.strong_induction_on with
  | _ n ih =>
    intro s k hn hs hk hu hks
    have hlen1 : 1 ≤ s.length := le_trans hk hks
    by_cases hk1 : k = 1
    · subst hk1
      rw [ZP_one_iff]
      apply varianceWithin_zero_of_const
      have hsub : ∀ x ∈ (s.drop 0).take (s.length - 1 + 1 - 0), x ∈ s := by
        intro x hx
        rw [List.drop_zero] at hx
        exact List.take_subset _ _ hx
      intro x hx y hy
      exact all_eq_of_keepFirst_le_one s hu x (hsub x hx) y (hsub y hy)
    · have hk2 : 2 ≤ k := by omega
      have hs_ne : s ≠ [] := by
        intro h
        rw [h] at hlen1
        simp at hlen1
      by_cases hA : (keepFirst s.dropLast).length ≤ k - 1
      · -- the last element alone forms the final class
        have htlen : s.dropLast.length = s.length - 1 := List.length_dropLast s
        have htsorted : s.dropLast.Sorted (· ≤ ·) :=
          List.Pairwise.sublist (List.dropLast_sublist s) hs
        have hzp_t : ZP s.dropLast (k - 1) s.dropLast.length :=
          ih s.dropLast.length (by omega) s.dropLast (k - 1) rfl htsorted (by omega) hA
            (by omega)
        have hsplit : s.dropLast ++ [s.getLast hs_ne] = s :=
          List.dropLast_append_getLast hs_ne
        have hzp_s : ZP s (k - 1) (s.length - 1) := by
          have h1 := ZP_append s.dropLast [s.getLast hs_ne] (k - 1) s.dropLast.length
            (by omega) (by omega) (le_refl _) hzp_t
          rw [hsplit] at h1
          rwa [htlen] at h1
        rw [show k = (k - 1) + 1 from by omega, ZP_succ_iff s (k - 1) s.length (by omega)]
        exact ⟨s.length, by omega, le_refl _, hzp_s,
          varianceWithin_zero_of_le s _ _ (by omega)⟩
      · -- the whole run of the maximum value forms the final class
        have hcval : s.getD (s.length - 1) 0 ∈ s := by
          rw [List.getD_eq_getElem _ 0 (by omega)]
          exact List.getElem_mem _
        set c := s.getD (s.length - 1) 0 with hc_def
        set u := s.takeWhile (fun x => decide (x < c)) with hu_def
        set w := s.dropWhile (fun x => decide (x < c)) with hw_def
        have huw : u ++ w = s := by
          rw [hu_def, hw_def]
          simp
        have hmax : ∀ x ∈ s, x ≤ c := by
          intro x hx
          obtain ⟨p, hp, hxp⟩ := List.mem_iff_getElem.mp hx
          rw [← hxp, ← List.getD_eq_getElem _ 0 hp]
          exact sorted_getD_mono s hs p (s.length - 1) (by omega) (by omega)
        have hui : ∀ x ∈ u, x < c := by
          intro x hx
          have := List.mem_takeWhile_imp hx
          simpa using this
        have hcu : c ∉ u := fun hc' => lt_irrefl c (hui c hc')
        have hw_ne : w ≠ [] := by
          intro h0
          rw [h0, List.append_nil] at huw
          rw [← huw] at hcval
          exact lt_irrefl c (hui c hcval)
        have hw_sorted : w.Sorted (· ≤ ·) :=
          List.Pairwise.sublist (List.dropWhile_sublist _) hs
        have hw_sub : ∀ x ∈ w, x ∈ s := fun x hx =>
          (List.dropWhile_sublist _).subset hx
        have hw_all : ∀ x ∈ w, x = c := by
          intro x hx
          rcases hw2 : w with _ | ⟨y, ys⟩
          · rw [hw2] at hx
            simp at hx
          · have hy : ¬ (decide (y < c)) = true :=
              dropWhile_head_not (fun x => decide (x < c)) s y ys
                (by rw [← hw_def]; exact hw2)
            have hyc : c ≤ y := not_lt.mp (by simpa using hy)
            have hxy : y ≤ x := by
              rw [hw2] at hx
              exact sorted_head_le y ys (hw2 ▸ hw_sorted) x hx
            have hxc : x ≤ c := hmax x (hw_sub x hx)
            exact le_antisymm hxc (le_trans hyc hxy)
        have hulen_lt : u.length < s.length := by
          have hlen_uw := congrArg List.length huw
          rw [List.length_append] at hlen_uw
          have h1 : 1 ≤ w.length := by
            cases hwe : w with
            | nil => exact absurd hwe hw_ne
            | cons y ys => simp
          omega
        have huniq_dropLast : k ≤ (keepFirst s.dropLast).length := by omega
        have huniq_mono : (keepFirst s.dropLast).length ≤ (keepFirst s).length :=
          keepFirst_length_mono _ _ (fun x hx => List.dropLast_subset s hx)
        have huniq_s : (keepFirst s).length = k := le_antisymm hu (by omega)
        have hmemu : ∀ x, x ∈ u ↔ x ∈ s ∧ x < c := by
          intro x
          constructor
          · intro hx
            refine ⟨?_, hui x hx⟩
            rw [← huw]
            exact List.mem_append_left w hx
          · rintro ⟨hxs, hxc⟩
            rw [← huw] at hxs
            rcases List.mem_append.mp hxs with h | h
            · exact h
            · rw [hw_all x h] at hxc
              exact absurd hxc (lt_irrefl c)
        have huniq_u : (keepFirst u).length + 1 = k := by
          have hnodup2 : (c :: keepFirst u).Nodup :=
            List.nodup_cons.mpr ⟨fun hc' => hcu ((keepFirst_mem _ _).mp hc'),
              keepFirst_nodup u⟩
          have hperm : (keepFirst s).Perm (c :: keepFirst u) := by
            rw [List.perm_ext_iff_of_nodup (keepFirst_nodup s) hnodup2]
            intro a
            rw [keepFirst_mem, List.mem_cons, keepFirst_mem]
            constructor
            · intro ha
              by_cases hac : a = c
              · exact Or.inl hac
              · exact Or.inr ((hmemu a).mpr ⟨ha, lt_of_le_of_ne (hmax a ha) hac⟩)
            · rintro (rfl | ha)
              · exact hcval
              · exact ((hmemu a).mp ha).1
          have hlen := hperm.length_eq
          rw [huniq_s] at hlen
          simp only [List.length_cons] at hlen
          omega
        have hulen_ge : k - 1 ≤ u.length := by
          have := keepFirst_length_le u
          omega
        have hu_sorted : u.Sorted (· ≤ ·) :=
          List.Pairwise.sublist (List.takeWhile_sublist _) hs
        have hzp_u : ZP u (k - 1) u.length :=
          ih u.length (by omega) u (k - 1) rfl hu_sorted (by omega) (by omega) hulen_ge
        have hzp_su : ZP s (k - 1) u.length := by
          have h1 := ZP_append u w (k - 1) u.length (by omega) (by omega) (le_refl _) hzp_u
          rwa [huw] at h1
        have hdropu : s.drop u.length = w := by
          conv_lhs => rw [← huw]
          exact List.drop_left u w
        have hvar : varianceWithin s u.length (s.length - 1) = 0 := by
          apply varianceWithin_zero_of_const
          have hsubw : ∀ x ∈ (s.drop u.length).take (s.length - 1 + 1 - u.length), x ∈ w := by
            intro x hx
            rw [hdropu] at hx
            exact List.take_subset _ _ hx
          intro x hx y hy
          rw [hw_all x (hsubw x hx), hw_all y (hsubw y hy)]
        rw [show k = (k - 1) + 1 from by omega, ZP_succ_iff s (k - 1) s.length (by omega)]
        refine ⟨u.length + 1, by omega, by omega, ?_, ?_⟩
        · simpa using hzp_su
        · simpa using hvar

/-- If a zero partition of the prefix `j` into `i` classes exists, the
dynamic program finds total variance `0`. -/
theorem jenksDP_zero_of_ZP (s : List ℚ) (i : ℕ) :
    ∀ j, 1 ≤ i → i ≤ j → ZP s i j → (jenksDP s i j).2 = some 0 := by
  induction i with
  | zero =>
    intro j h
    omega
  | succ i ih =>
    intro j _ hij hzp
    by_cases hi0 : i = 0
    · subst hi0
      rw [ZP_one_iff] at hzp
      match j, hij with
      | 1, _ => rfl
      | j + 2, _ =>
        show some (varianceWithin s 0 (j + 2 - 1)) = some 0
        rw [hzp]
    · have hi1 : 1 ≤ i := by omega
      rw [ZP_succ_iff s i j hi1] at hzp
      obtain ⟨sp, hsp1, hsp2, hspzp, hspvar⟩ := hzp
      obtain ⟨-, k0, hk01, hk02, hk0eq, hk0val, hk0min, -⟩ :=
        jenksDP_min_characterisation s (i + 1) j (by omega) hij
      have hVsp : (jenksDP s ((i + 1) - 1) (sp - 1)).2 = some 0 := by
        rw [Nat.add_sub_cancel]
        exact ih (sp - 1) hi1 (by omega) hspzp
      have hcand : oAdd (jenksDP s ((i + 1) - 1) (sp - 1)).2
          (varianceWithin s (sp - 1) (j - 1)) = some 0 := by
        rw [hVsp, hspvar]
        simp [oAdd]
      have hle := hk0min sp hsp1 hsp2
      rw [hcand] at hle
      obtain ⟨q, hq, hq0⟩ := isSome_of_oLe_some _ 0 hle
      obtain ⟨q2, hq2, hq20⟩ := (jenksDP_invariant s (i + 1) j (by omega) hij).1
      rw [hq] at hq2
      rw [hq]
      have hqq : q = q2 := by
        injection hq2
      have hq0' : 0 ≤ q := hqq ▸ hq20
      congr 1
      linarith

theorem backtrack_one (s : List ℚ) (k : ℕ) (hk : 1 ≤ k) :
    backtrack s k 1 = [s.getD 0 0] := by
  have hL : (jenksDP s 1 k).1 = 1 := jenksDP_one_fst s k hk
  show backtrack s ((jenksDP s 1 k).1 - 1) 0 ++ [s.getD ((jenksDP s 1 k).1 - 1) 0] =
    [s.getD 0 0]
  rw [hL]
  rfl

theorem backtrack_head? (s : List ℚ) : ∀ j, 1 ≤ j → ∀ k, j ≤ k →
    (backtrack s k j).head? = some (s.getD 0 0) := by
  intro j
  induction j with
  | zero =>
    intro h
    omega
  | succ j ih =>
    intro _ k hjk
    by_cases hj0 : j = 0
    · subst hj0
      rw [backtrack_one s k (by omega)]
      rfl
    · have hj1 : 1 ≤ j := by omega
      have hinv := (jenksDP_invariant s (j + 1) k (by omega) hjk).2 (by omega)
      have hshape : backtrack s k (j + 1) =
          backtrack s ((jenksDP s (j + 1) k).1 - 1) j ++
            [s.getD ((jenksDP s (j + 1) k).1 - 1) 0] := rfl
      rw [hshape, List.head?_append, ih hj1 ((jenksDP s (j + 1) k).1 - 1) (by omega)]
      rfl

/-- When the dynamic program achieves total variance `0`, the extracted
class boundaries cover every element of the prefix: each element value
equals the value at the lower limit of the class containing it. -/
theorem backtrack_cover (s : List ℚ) (i : ℕ) :
    ∀ k, 1 ≤ i → i ≤ k → k ≤ s.length → (jenksDP s i k).2 = some 0 →
      ∀ p, p < k → s.getD p 0 ∈ backtrack s k i := by
  induction i with
  | zero =>
    intro k h
    omega
  | succ i ih =>
    intro k _ hik hklen hzero p hp
    by_cases hi0 : i = 0
    · subst hi0
      rw [backtrack_one s k (by omega), List.mem_singleton]
      by_cases hk1 : k = 1
      · subst hk1
        have : p = 0 := by omega
        rw [this]
      · have hk2 : 2 ≤ k := by omega
        have hvv : (jenksDP s 1 k).2 = some (varianceWithin s 0 (k - 1)) := by
          match k, hk2 with
          | k + 2, _ => rfl
        rw [hvv] at hzero
        have hvar : varianceWithin s 0 (k - 1) = 0 := by
          injection hzero
        by_cases hp0 : p = 0
        · rw [hp0]
        · exact varianceWithin_const_of_zero s 0 (k - 1) (by omega) (by omega) hvar p
            (by omega) (by omega)
    · have hi1 : 1 ≤ i := by omega
      obtain ⟨-, k0, hk01, hk02, hk0eq, hk0val, -, -⟩ :=
        jenksDP_min_characterisation s (i + 1) k (by omega) hik
      obtain ⟨q2, hq2, hq20⟩ :=
        (jenksDP_invariant s ((i + 1) - 1) (k0 - 1) (by omega) (by omega)).1
      rw [hzero, hq2] at hk0val
      have hsum : (0 : ℚ) = q2 + varianceWithin s (k0 - 1) (k - 1) := by
        have : (some (0 : ℚ)) = some (q2 + varianceWithin s (k0 - 1) (k - 1)) := hk0val
        injection this
      have hvnn := varianceWithin_nonneg s (k0 - 1) (k - 1)
      have hq2z : q2 = 0 := by linarith
      have hvz : varianceWithin s (k0 - 1) (k - 1) = 0 := by linarith
      have hVprev : (jenksDP s i (k0 - 1)).2 = some 0 := by
        have := hq2
        rw [Nat.add_sub_cancel] at this
        rw [this, hq2z]
      have hshape : backtrack s k (i + 1) =
          backtrack s ((jenksDP s (i + 1) k).1 - 1) i ++
            [s.getD ((jenksDP s (i + 1) k).1 - 1) 0] := rfl
      rw [hshape, hk0eq]
      rcases Nat.lt_or_ge p (k0 - 1) with hpk | hpk
      · exact List.mem_append_left _ (ih (k0 - 1) hi1 (by omega) (by omega) hVprev p hpk)
      · apply List.mem_append_right
        rw [List.mem_singleton]
        by_cases hpe : p = k0 - 1
        · rw [hpe]
        · have hlt : k0 - 1 < k - 1 := by omega
          exact varianceWithin_const_of_zero s (k0 - 1) (k - 1) hlt (by omega) hvz p
            (by omega) (by omega)

theorem keepFirst_insertionSort_length (data : List ℚ) :
    (keepFirst (data.insertionSort (· ≤ ·))).length = data.dedup.length := by
  have hperm : (keepFirst (data.insertionSort (· ≤ ·))).Perm data.dedup := by
    rw [List.perm_ext_iff_of_nodup (keepFirst_nodup _) (List.nodup_dedup data)]
    intro a
    rw [keepFirst_mem, List.mem_insertionSort, List.mem_dedup]
  exact hperm.length_eq

/-- C3: whenever the sample has at most `k` distinct values (`k ≥ 1`),
`jenksBreaks` returns exactly the strictly ascending sequence of the
sample's unique values (characterised as the strictly sorted list with the
same membership as the sample); in particular the empty sample yields `[]`
and the sample `[5,5,5]` with `k = 3` yields `[5]`. -/
theorem C3_unique_values (data : List ℚ) (k : ℕ) (hk : 1 ≤ k)
    (hu : data.dedup.length ≤ k) :
    (jenksBreaks (data.map some) k).Sorted (· < ·) ∧
    (∀ a : ℚ, a ∈ jenksBreaks (data.map some) k ↔ a ∈ data) ∧
    jenksBreaks ([] : List (Option ℚ)) k = [] ∧
    jenksBreaks [some 5, some 5, some 5] 3 = [5] := by
  suffices h : (jenksBreaks (data.map some) k).Sorted (· < ·) ∧
      (∀ a : ℚ, a ∈ jenksBreaks (data.map some) k ↔ a ∈ data) by
    exact ⟨h.1, h.2, rfl, by with_unfolding_all decide⟩
  rcases data with _ | ⟨d, ds⟩
  · exact ⟨List.sorted_nil, by simp [jenksBreaks]⟩
  have hs := List.sorted_insertionSort (· ≤ ·) (d :: ds)
  have hslen : ((d :: ds).insertionSort (· ≤ ·)).length = (d :: ds).length :=
    List.length_insertionSort _ _
  have hsmem : ∀ x : ℚ, x ∈ (d :: ds).insertionSort (· ≤ ·) ↔ x ∈ d :: ds := by
    intro x
    exact List.mem_insertionSort _
  have hgetD_mem : ∀ p, p < ((d :: ds).insertionSort (· ≤ ·)).length →
      ((d :: ds).insertionSort (· ≤ ·)).getD p 0 ∈ d :: ds := by
    intro p hp
    rw [List.getD_eq_getElem _ 0 hp]
    exact (hsmem _).mp (List.getElem_mem hp)
  by_cases hbr : ((d :: ds).insertionSort (· ≤ ·)).length ≤ k
  · -- the short-sample branch returns the deduplicated sorted sample directly
    have hout : jenksBreaks ((d :: ds).map some) k =
        keepFirst ((d :: ds).insertionSort (· ≤ ·)) := by
      unfold jenksBreaks
      rw [if_neg (by simp), if_neg (by simp), if_pos (by
        simp only [List.filterMap_map, Function.id_comp, List.filterMap_some]
        exact hbr)]
      simp only [List.filterMap_map, Function.id_comp, List.filterMap_some]
    rw [hout]
    refine ⟨keepFirst_sorted_lt _ hs, ?_⟩
    intro a
    rw [keepFirst_mem, hsmem]
  · -- the solver branch: the zero-variance optimum covers every value
    have hout : jenksBreaks ((d :: ds).map some) k =
        keepFirst (rawBreaks ((d :: ds).insertionSort (· ≤ ·)) k) := by
      unfold jenksBreaks
      rw [if_neg (by simp), if_neg (by simp), if_neg (by
        simp only [List.filterMap_map, Function.id_comp, List.filterMap_some]
        exact hbr)]
      simp only [List.filterMap_map, Function.id_comp, List.filterMap_some]
    have hklen : k ≤ ((d :: ds).insertionSort (· ≤ ·)).length := by omega
    obtain ⟨hrlen, hrsort, ⟨tl, htl⟩, hrlast, hrmem⟩ :=
      rawBreaks_spec ((d :: ds).insertionSort (· ≤ ·)) k hs hk hklen
    rw [hout]
    refine ⟨keepFirst_sorted_lt _ hrsort, ?_⟩
    intro a
    rw [keepFirst_mem]
    constructor
    · intro ha
      obtain ⟨p, hp, hap⟩ := hrmem a ha
      rw [hap]
      exact hgetD_mem p hp
    · intro ha
      -- every sample value appears among the extracted boundaries
      have hZP : ZP ((d :: ds).insertionSort (· ≤ ·)) k
          ((d :: ds).insertionSort (· ≤ ·)).length :=
        zp_of_uniq ((d :: ds).insertionSort (· ≤ ·)).length _ k rfl hs hk
          (by rw [keepFirst_insertionSort_length]; exact hu) hklen
      have hzero := jenksDP_zero_of_ZP ((d :: ds).insertionSort (· ≤ ·)) k
        ((d :: ds).insertionSort (· ≤ ·)).length hk hklen hZP
      obtain ⟨p, hp, hap⟩ := List.mem_iff_getElem.mp ((hsmem a).mpr ha)
      have hcov := backtrack_cover ((d :: ds).insertionSort (· ≤ ·)) k
        ((d :: ds).insertionSort (· ≤ ·)).length hk hklen (le_refl _) hzero p hp
      have hhead := backtrack_head? ((d :: ds).insertionSort (· ≤ ·)) k hk
        ((d :: ds).insertionSort (· ≤ ·)).length hklen
      have hraw : rawBreaks ((d :: ds).insertionSort (· ≤ ·)) k =
          (((d :: ds).insertionSort (· ≤ ·)).getD 0 0 ::
            (backtrack ((d :: ds).insertionSort (· ≤ ·))
              ((d :: ds).insertionSort (· ≤ ·)).length k).drop 1) ++
          [((d :: ds).insertionSort (· ≤ ·)).getD
            (((d :: ds).insertionSort (· ≤ ·)).length - 1) 0] := by
        rw [rawBreaks, if_neg (by omega)]
      have hav : a = ((d :: ds).insertionSort (· ≤ ·)).getD p 0 := by
        rw [List.getD_eq_getElem _ 0 hp, hap]
      cases hbt : backtrack ((d :: ds).insertionSort (· ≤ ·))
          ((d :: ds).insertionSort (· ≤ ·)).length k with
      | nil =>
        have := backtrack_length ((d :: ds).insertionSort (· ≤ ·)) k
          ((d :: ds).insertionSort (· ≤ ·)).length
        rw [hbt] at this
        simp at this
        omega
      | cons c0 rest =>
        rw [hbt] at hcov hhead
        have hc0 : c0 = ((d :: ds).insertionSort (· ≤ ·)).getD 0 0 := by
          simp only [List.head?_cons, Option.some.injEq] at hhead
          exact hhead
        rw [hraw, hbt]
        simp only [List.drop_succ_cons, List.drop_zero]
        rcases List.mem_cons.mp hcov with hx | hx
        · apply List.mem_append_left
          rw [hav, hx, hc0]
          exact List.mem_cons_self _ _
        · apply List.mem_append_left
          rw [hav]
          exact List.mem_cons_of_mem _ hx

/-- Witness for C3 on the degenerate sample `[5, 5, 5]` with `k = 3`. -/
theorem C3_unique_values_witness :
    (jenksBreaks ([(5:ℚ), 5, 5].map some) 3).Sorted (· < ·) ∧
    (∀ a : ℚ, a ∈ jenksBreaks ([(5:ℚ), 5, 5].map some) 3 ↔ a ∈ [(5:ℚ), 5, 5]) ∧
    jenksBreaks ([] : List (Option ℚ)) 3 = [] ∧
    jenksBreaks [some 5, some 5, some 5] 3 = [5] :=
  C3_unique_values [5, 5, 5] 3 (by omega) (by decide)

end ICIO
